import Mathlib

/-!
Verification of the oddish three-stage pipeline engine: a shallow embedding
of the queue-key canonicalization (src/oddish/config.py), the dispatcher
spawn planner (workers/queue/dispatch_planner.py), the pipeline fan-in
transitions (oddish/queue.py), the trial handler
(workers/queue/trial_handler.py), the job routers
(workers/queue/queue_manager.py and backend/worker.py) and the queue-slot
lessor (backend/worker.py), together with proofs of the spec's properties
P2, P5, P6, P7, P8 and the error-handling contract.

Machine strings are modelled as Lean `String`s with explicit list-of-char
implementations of the Python primitives the code uses (`strip`, `lower`,
`replace`, `split`, `startswith`, `in`).  Python `strip` removes Unicode
whitespace; the model uses ASCII whitespace (`Char.isWhitespace`), which
covers every string the queue layer manipulates.  Timestamps are abstract
`Nat` ticks.  Database rows are Lean structures; each handler is a pure
state transformer over them, and fallible code returns an explicit error
component instead of raising.
-/

namespace Oddish

/-! ### Python string primitives -/

/-- Python `str.lower()` on one character (ASCII range, as used by the
queue keys; `Char.toLower` matches CPython on ASCII). -/
def pyCharLower (c : Char) : Char := Char.toLower c

/-- Python `str.lower()`. -/
def pyLower (s : String) : String := ⟨s.data.map pyCharLower⟩

/-- Drop leading whitespace (the first half of Python `str.strip()`). -/
def dropLeadingWs (l : List Char) : List Char := l.dropWhile Char.isWhitespace

/-- Drop trailing whitespace (the second half of Python `str.strip()`). -/
def dropTrailingWs (l : List Char) : List Char :=
  ((l.reverse).dropWhile Char.isWhitespace).reverse

/-- Python `str.strip()` on a character list. -/
def pyStripList (l : List Char) : List Char := dropTrailingWs (dropLeadingWs l)

/-- Python `str.strip()`. -/
def pyTrim (s : String) : String := ⟨pyStripList s.data⟩

/-- Python `str.replace(" ", "_")` on one character. -/
def spaceToUnderscore (c : Char) : Char := if c = ' ' then '_' else c

/-- Python `str.replace(" ", "_")`. -/
def pyReplaceSpace (s : String) : String := ⟨s.data.map spaceToUnderscore⟩

/-- The composite `model.strip().lower().replace(" ", "_")` from
`Settings.normalize_queue_key`. -/
def pyNormChunk (s : String) : String := pyReplaceSpace (pyLower (pyTrim s))

/-- Python `"/" in s`. -/
def pyContainsChar (s : String) (c : Char) : Bool := s.data.contains c

/-- Python `s.split(sep, 1)` for a one-character separator occurring in
`s`: the part before the first occurrence and the part after it. -/
def pySplitFirst (s : String) (c : Char) : String × String :=
  (⟨s.data.takeWhile (fun x => x ≠ c)⟩, ⟨(s.data.dropWhile (fun x => x ≠ c)).tail⟩)

/-- Python `s.startswith(pat)`. -/
def pyStarts (s pat : String) : Bool := pat.data.isPrefixOf s.data

/-- Python `needle in hay` (substring containment). -/
def pyContainsSub (hay needle : String) : Bool := decide (needle.data <:+: hay.data)

/-! ### Queue-key canonicalization (src/src/oddish/config.py) -/

/-- `_MODEL_ABSENT_ALIASES` from config.py. -/
def modelAbsentAliases : List String :=
  ["", "-", "none", "null", "nil", "n/a", "na", "default"]

/-- `_PROVIDER_ONLY_QUEUE_ALIASES` from config.py. -/
def providerOnlyQueueAliases : List String :=
  ["openai", "anthropic", "claude", "google", "gemini", "default"]

/-- The `normalized = provider.strip().lower(); return normalized or None`
idiom that `_infer_provider_prefix` applies to a truthy provider string
obtained from `split_provider_model_name` or litellm's `get_llm_provider`. -/
def cleanupProviderToken (p : String) : Option String :=
  let n := pyLower (pyTrim p)
  if n = "" then none else some n

/-- The heuristic fallback of `_infer_provider_prefix` for common bare
model aliases (config.py lines 101-112). -/
def heuristicProviderFor (lowered : String) : Option String :=
  if pyStarts lowered "gpt-" || pyStarts lowered "o1" || pyStarts lowered "o3" ||
      pyStarts lowered "o4" || pyStarts lowered "chatgpt-" ||
      pyStarts lowered "text-embedding-" then
    some "openai"
  else if pyStarts lowered "claude" then some "anthropic"
  else if pyStarts lowered "gemini" then some "google"
  else none

/-- `_infer_provider_prefix` from config.py.  The two external library
calls are oracles: `hsplit` is harbor's `split_provider_model_name`
(returning the raw provider part when truthy), `llm` is litellm's
`get_llm_provider` (returning the provider when it neither raises nor is
falsy). -/
def inferProvider (hsplit llm : String → Option String) (modelName : String) :
    Option String :=
  match hsplit modelName with
  | some pp => cleanupProviderToken pp
  | none =>
    match llm modelName with
    | some lp => cleanupProviderToken lp
    | none => heuristicProviderFor (pyLower (pyTrim modelName))

/-- `Settings.normalize_queue_key` from config.py, parameterized by the
same two external-library oracles. -/
def normalizeQueueKey (hsplit llm : String → Option String) (model : String) :
    String :=
  let normalized := pyNormChunk model
  if normalized = "" then "default"
  else if modelAbsentAliases.contains normalized then "default"
  else if providerOnlyQueueAliases.contains normalized then "default"
  else if pyContainsChar normalized '/' then
    let pieces := pySplitFirst normalized '/'
    if providerOnlyQueueAliases.contains pieces.1 &&
        providerOnlyQueueAliases.contains pieces.2 then "default"
    else normalized
  else
    match inferProvider hsplit llm normalized with
    | none => normalized
    | some pp => pp ++ "/" ++ normalized

/-- Well-behavedness of an external provider oracle, as guaranteed by the
libraries config.py calls: a provider name it reports, once stripped and
lowercased, contains no space and no slash and is not the bare letter n
(harbor and litellm provider identifiers are words like openai,
anthropic, vertex_ai). -/
def GoodProviderOracle (g : String → Option String) : Prop :=
  ∀ m p q, g m = some p → cleanupProviderToken p = some q →
    (' ' ∉ q.data ∧ '/' ∉ q.data ∧ q ≠ "n")

/-- A character list fixed by the `strip().lower().replace(" ", "_")`
pipeline: no leading or trailing whitespace, every character lowercase,
no space character. -/
def NormChars (l : List Char) : Prop :=
  l.dropWhile Char.isWhitespace = l ∧
  l.reverse.dropWhile Char.isWhitespace = l.reverse ∧
  (∀ c ∈ l, Char.toLower c = c) ∧
  (∀ c ∈ l, c ≠ ' ')

/-! ### Dispatcher spawn planner
(src/oddish/src/oddish/workers/queue/dispatch_planner.py) -/

/-- One entry of the `queue_counts` dict: queued and picked counts for a
queue entrypoint, as returned by `get_queue_counts`. -/
structure QueueCount where
  queued : Nat
  picked : Nat
  deriving DecidableEq, Repr

/-- Python `queue_counts.get(key, {}).get("queued"/"picked", 0)`. -/
def lookupCount (counts : List (String × QueueCount)) (k : String) : QueueCount :=
  ((counts.find? (fun e => e.1 == k)).map Prod.snd).getD ⟨0, 0⟩

/-- Python `concurrency_limits.get(key, 0)`. -/
def lookupLimit (limits : List (String × Int)) (k : String) : Int :=
  ((limits.find? (fun e => e.1 == k)).map Prod.snd).getD 0

/-- Per-key capacity `max(min(queued, limit - running), 0)` from
`build_spawn_plan`. -/
def capacityOf (counts : List (String × QueueCount)) (limits : List (String × Int))
    (k : String) : Nat :=
  (max (min ((lookupCount counts k).queued : Int) ((lookupLimit limits k) -
    ((lookupCount counts k).picked : Int))) 0).toNat

/-- `sorted(set(queue_counts.keys()) | set(concurrency_limits.keys()))`. -/
def planKeys (counts : List (String × QueueCount)) (limits : List (String × Int)) :
    List String :=
  ((counts.map Prod.fst ++ limits.map Prod.fst).dedup).mergeSort
    (fun a b => decide (a ≤ b))

/-- One `for queue_key in queue_keys` pass of the round-robin loop in
`build_spawn_plan`: walk the capacity list in order, appending each key
with remaining capacity and decrementing it, stopping once the plan has
reached `target` entries.  Returns the updated capacities and the plan. -/
def onePass (target : Nat) : List (String × Nat) → List String →
    List (String × Nat) × List String
  | [], acc => ([], acc)
  | (k, c) :: rest, acc =>
    if target ≤ acc.length then ((k, c) :: rest, acc)
    else if 0 < c then
      let r := onePass target rest (acc ++ [k])
      ((k, c - 1) :: r.1, r.2)
    else
      let r := onePass target rest acc
      ((k, c) :: r.1, r.2)

/-- The `while len(spawn_plan) < workers_to_spawn` loop of
`build_spawn_plan`; each productive pass appends at least one entry, so
fuel `target` suffices, and an unproductive pass breaks the loop. -/
def spawnRounds : Nat → Nat → List (String × Nat) → List String → List String
  | 0, _, _, acc => acc
  | fuel + 1, target, caps, acc =>
    if target ≤ acc.length then acc
    else
      let r := onePass target caps acc
      if r.2.length = acc.length then r.2
      else spawnRounds fuel target r.1 r.2

/-- The `total_capacity` of `build_spawn_plan`: the sum of per-key
capacities over the sorted key set. -/
def totalCapacity (counts : List (String × QueueCount))
    (limits : List (String × Int)) : Nat :=
  ((planKeys counts limits).map (capacityOf counts limits)).sum

/-- The capacity mass a capacity list assigns to one key (the sum over
its entries with that key). -/
def capSum (k0 : String) (caps : List (String × Nat)) : Nat :=
  ((caps.filter (fun e => e.1 == k0)).map Prod.snd).sum

/-- `build_spawn_plan(queue_counts, concurrency_limits, max_workers)` from
dispatch_planner.py. -/
def buildSpawnPlan (counts : List (String × QueueCount))
    (limits : List (String × Int)) (maxWorkers : Int) : List String :=
  let keys := planKeys counts limits
  let caps := keys.map (fun k => (k, capacityOf counts limits k))
  let total : Nat := (caps.map Prod.snd).sum
  if total = 0 ∨ maxWorkers ≤ 0 then []
  else
    let target := min total maxWorkers.toNat
    spawnRounds target target caps []

/-! ### Pipeline data model (src/src/oddish/db/models.py) -/

/-- Trial execution status. -/
inductive TrialStatus where
  | pending | queued | running | retrying | success | failed
  deriving DecidableEq, Repr

/-- Task pipeline status. -/
inductive TaskStatus where
  | pending | running | analyzing | verdictPending | completed | failed
  deriving DecidableEq, Repr

/-- Per-trial analysis status. -/
inductive AnalysisStatus where
  | pending | queued | running | success | failed
  deriving DecidableEq, Repr

/-- Task verdict status. -/
inductive VerdictStatus where
  | queued | running | success | failed
  deriving DecidableEq, Repr

/-- The trial row fields the trial handler reads or writes.  Timestamps
are abstract ticks, `cost_usd` is carried opaquely as an integer. -/
structure TrialRow where
  status : TrialStatus
  attempts : Nat
  maxAttempts : Nat
  idempotencyKey : Option String
  harborStage : Option String
  startedAt : Option Nat
  finishedAt : Option Nat
  reward : Option Int
  errorMessage : Option String
  harborResultPath : Option String
  trialS3Key : Option String
  inputTokens : Option Nat
  cacheTokens : Option Nat
  outputTokens : Option Nat
  costUsd : Option Int
  phaseTiming : Option String
  hasTrajectory : Option Bool
  analysisStatus : Option AnalysisStatus
  agent : String
  model : Option String
  deriving DecidableEq, Repr

/-- The task row fields the trial handler and the fan-in transitions read
or write. -/
structure TaskRow where
  status : TaskStatus
  startedAt : Option Nat
  finishedAt : Option Nat
  runAnalysis : Bool
  taskPath : Option String
  taskS3Key : Option String
  verdictStatus : Option VerdictStatus
  deriving DecidableEq, Repr

/-- One task's slice of the database: the task row, its trial rows keyed
by trial id, and the number of analysis and verdict jobs enqueued for it
(`enqueue_analysis` / `enqueue_verdict` insert one pgqueuer row each). -/
structure World where
  task : TaskRow
  trials : List (String × TrialRow)
  analysisJobs : Nat
  verdictJobs : Nat
  deriving DecidableEq, Repr

/-- `session.get(TrialModel, trial_id)`. -/
def findTrial (w : World) (tid : String) : Option TrialRow :=
  ((w.trials.find? (fun e => e.1 == tid)).map Prod.snd)

/-- Write back one trial row. -/
def setTrial (w : World) (tid : String) (t : TrialRow) : World :=
  { w with trials := w.trials.map (fun e => if e.1 == tid then (e.1, t) else e) }

/-- Statuses counted by `maybe_start_analysis_stage` step 4 (trials still
to finish). -/
def isActiveTrialStatus (s : TrialStatus) : Bool :=
  s = .pending ∨ s = .queued ∨ s = .running ∨ s = .retrying

/-- Count of trials whose status is pending/queued/running/retrying. -/
def pendingTrialCount (w : World) : Nat :=
  (w.trials.filter (fun e => isActiveTrialStatus e.2.status)).length

/-- Analysis statuses counted in `maybe_start_analysis_stage` step 5:
`analysis_status IS NULL OR analysis_status IN (pending, queued,
running)`. -/
def isIncompleteAnalysis (a : Option AnalysisStatus) : Bool :=
  a = none ∨ a = some .pending ∨ a = some .queued ∨ a = some .running

/-- Count of trials whose analysis has not finished (NULL included). -/
def analysisIncompleteCount (w : World) : Nat :=
  (w.trials.filter (fun e => isIncompleteAnalysis e.2.analysisStatus)).length

/-- Analysis statuses counted in `maybe_start_verdict_stage` step 4: the
SQL `IN (pending, queued, running)` does not match NULL. -/
def isRunningAnalysis (a : Option AnalysisStatus) : Bool :=
  a = some .pending ∨ a = some .queued ∨ a = some .running

/-- Count of trials whose analysis is pending/queued/running. -/
def analysisRunningCount (w : World) : Nat :=
  (w.trials.filter (fun e => isRunningAnalysis e.2.analysisStatus)).length

/-- `maybe_start_analysis_stage(session, trial_id)` from
src/src/oddish/queue.py (lines 509-594), one locked transaction; the
returned Bool is the function's return value. -/
def maybeStartAnalysisStage (w : World) (trialId : String) (now : Nat) :
    World × Bool :=
  match findTrial w trialId with
  | none => (w, false)
  | some _ =>
    if ¬(w.task.status = .pending ∨ w.task.status = .running) then (w, false)
    else if 0 < pendingTrialCount w then (w, false)
    else if w.task.runAnalysis then
      if analysisIncompleteCount w = 0 then
        ({ w with
            task := { w.task with
                        status := .verdictPending
                        verdictStatus := some .queued }
            verdictJobs := w.verdictJobs + 1 }, true)
      else ({ w with task := { w.task with status := .analyzing } }, true)
    else
      ({ w with task := { w.task with
          status := .completed
          finishedAt := some now } }, true)

/-- `maybe_start_verdict_stage(session, trial_id)` from
src/src/oddish/queue.py (lines 597-652). -/
def maybeStartVerdictStage (w : World) (trialId : String) : World × Bool :=
  match findTrial w trialId with
  | none => (w, false)
  | some _ =>
    if w.task.status ≠ .analyzing then (w, false)
    else if 0 < analysisRunningCount w then (w, false)
    else
      ({ w with
          task := { w.task with
                      status := .verdictPending
                      verdictStatus := some .queued }
          verdictJobs := w.verdictJobs + 1 }, true)

/-- One serialized critical section in a task's lifetime, as seen by the
fan-in functions: a call to either locked transition, the trial handler
marking a pending task running, or handler writes to trial rows and the
analysis queue (which never touch the task status or the verdict
queue). -/
inductive FanInStep : World → World → Prop where
  | analysisStage (w : World) (tid : String) (now : Nat) :
      FanInStep w (maybeStartAnalysisStage w tid now).1
  | verdictStage (w : World) (tid : String) :
      FanInStep w (maybeStartVerdictStage w tid).1
  | markTaskRunning (w : World) (now : Nat) (h : w.task.status = .pending) :
      FanInStep w
        { w with task := { w.task with status := .running, startedAt := some now } }
  | trialWrites (w : World) (trials' : List (String × TrialRow)) (aj : Nat) :
      FanInStep w { w with trials := trials', analysisJobs := aj }

/-- Interleavings of the serialized critical sections. -/
inductive FanInReachable (init : World) : World → Prop where
  | refl : FanInReachable init init
  | step {w w' : World} : FanInReachable init w → FanInStep w w' →
      FanInReachable init w'

/-- The invariant behind fan-in single-fire: with analysis enabled, the
verdict-job count is 1 exactly in `verdict_pending` and 0 in every other
reachable status, and the task never reaches `completed`/`failed` through
these transitions. -/
def FanInInv (w : World) : Prop :=
  w.task.runAnalysis = true ∧
  (w.task.status = .verdictPending → w.verdictJobs = 1) ∧
  (w.task.status ≠ .verdictPending → w.verdictJobs = 0) ∧
  (w.task.status = .pending ∨ w.task.status = .running ∨
    w.task.status = .analyzing ∨ w.task.status = .verdictPending)

/-! ### Trial handler (src/src/oddish/workers/queue/trial_handler.py) -/

/-- Python truthiness of an optional string (None and the empty string
are falsy). -/
def pyTruthyStr (o : Option String) : Bool :=
  match o with
  | some s => s ≠ ""
  | none => false

/-- Python `a or b or d` over optional strings with default `d`. -/
def pyOrStr (a b : Option String) (d : String) : String :=
  if pyTruthyStr a then a.getD d
  else if pyTruthyStr b then b.getD d
  else d

/-- The `Outcome` object returned by `run_harbor_trial_async`. -/
structure RunnerOutcome where
  reward : Option Int
  error : Option String
  jobResultPath : Option String
  jobDir : Option String
  inputTokens : Option Nat
  cacheTokens : Option Nat
  outputTokens : Option Nat
  costUsd : Option Int
  phaseTiming : Option String
  hasTrajectory : Option Bool
  deriving DecidableEq, Repr

/-- Harbor `exception_info` on a hook result. -/
structure ExceptionInfo where
  exceptionType : Option String
  exceptionMessage : Option String
  deriving DecidableEq, Repr

/-- Harbor `verifier_result` on a hook result; `rewards` is its reward
dict (None when absent, possibly empty). -/
structure VerifierResultData where
  rewards : Option (List (String × Int))
  deriving DecidableEq, Repr

/-- The `result` carried on a harbor `END` hook event. -/
structure HookResultData where
  verifierResult : Option VerifierResultData
  exceptionInfo : Option ExceptionInfo
  deriving DecidableEq, Repr

/-- Harbor trial lifecycle events delivered to the hook callback. -/
inductive TrialEventKind where
  | start
  | environmentStart
  | agentStart
  | verificationStart
  | ended (result : Option HookResultData)
  | cancel
  deriving DecidableEq, Repr

/-- `_is_agent_timeout_exception` from trial_handler.py. -/
def isAgentTimeoutException (e : Option ExceptionInfo) : Bool :=
  match e with
  | some i => i.exceptionType == some "AgentTimeoutError"
  | none => false

/-- `_is_agent_timeout_error_message` from trial_handler.py. -/
def isAgentTimeoutErrorMessage (error : Option String) : Bool :=
  if ¬ pyTruthyStr error then false
  else
    pyContainsSub (error.getD "") "AgentTimeoutError" ||
      pyContainsSub (error.getD "") "Agent execution timed out"

/-- One entry of the `trial_results` array in a harbor job-result file;
only the presence of `verifier_result` matters to the handler, so the
raw verifier blob is carried as an optional string. -/
structure TrialResultEntry where
  verifierResult : Option String
  deriving DecidableEq, Repr

/-- Parsed contents of a harbor job-result JSON file
(`data.get("trial_results") or []`). -/
structure JobResultData where
  trialResults : List TrialResultEntry
  deriving DecidableEq, Repr

/-- `_verifier_ran_from_job_result` from trial_handler.py; `fs` is the
filesystem oracle mapping a path to its parsed JSON, with `none` for any
open/parse exception. -/
def verifierRanFromJobResult (fs : String → Option JobResultData)
    (jobResultPath : Option String) : Bool :=
  match jobResultPath with
  | none => false
  | some p =>
    match fs p with
    | none => false
    | some d => d.trialResults.any (fun r => r.verifierResult.isSome)

/-- The reward-extraction step of the `END` hook branch:
`result.verifier_result and result.verifier_result.rewards` then
`rewards.get("reward")`. -/
def extractedRewardFrom (r : HookResultData) : Option Int :=
  match r.verifierResult with
  | some v =>
    match v.rewards with
    | some rs => (rs.find? (fun e => e.1 == "reward")).map Prod.snd
    | none => none
  | none => none

/-- The explanatory message written when a harbor `CANCEL` event arrives
(trial_handler.py lines 262-265). -/
def cancelEventMessage : String :=
  "Trial cancelled by the runtime. This is usually caused by a worker restart or an environment startup failure. Check worker logs."

/-- The `END` hook branch of `on_harbor_event` (trial_handler.py lines
193-257): extract the reward, fold in agent-timeout exception handling,
and pre-terminalize the trial so a crash after the hook cannot leave an
orphaned running row. -/
def applyEndLogic (res : Option HookResultData) (now : Nat) (t0 : TrialRow) :
    TrialRow :=
  let t := { t0 with harborStage := some "completed" }
  match res with
  | none => t
  | some r =>
    let ext0 := extractedRewardFrom r
    match r.exceptionInfo with
    | none =>
      if ext0.isSome then
        { t with status := .success, reward := ext0, finishedAt := some now }
      else t
    | some exc =>
      let errorMsg := pyOrStr exc.exceptionMessage exc.exceptionType "Unknown error"
      let isTO := isAgentTimeoutException (some exc)
      let ext1 :=
        if isTO ∧ ext0 = none ∧ r.verifierResult.isSome then some (0 : Int)
        else ext0
      let hasError : Bool := if isTO then ext1 = none else true
      let t1 := { t with errorMessage := some errorMsg }
      if ext1.isSome then
        { t1 with status := .success, reward := ext1, finishedAt := some now }
      else if hasError then
        { t1 with status := .failed, finishedAt := some now }
      else t1

/-- The database writes of `on_harbor_event` for each lifecycle event
(trial_handler.py lines 174-267). -/
def applyHookEvent (ev : TrialEventKind) (now : Nat) (t : TrialRow) : TrialRow :=
  match ev with
  | .start => { t with harborStage := some "trial_started" }
  | .environmentStart => { t with harborStage := some "environment_setup" }
  | .agentStart => { t with harborStage := some "agent_running" }
  | .verificationStart => { t with harborStage := some "verification" }
  | .ended res => applyEndLogic res now t
  | .cancel =>
    { t with
        harborStage := some "cancelled"
        status := .failed
        errorMessage := some cancelEventMessage
        finishedAt := some now }

/-- Fate of the short database session one hook invocation opens: it
succeeds, fails while opening or writing, or fails at commit. -/
inductive DbAttempt where
  | ok
  | failSession
  | failCommit
  deriving DecidableEq, Repr

/-- The body of the `try` block inside `on_harbor_event`: open a session
(`allow_missing=True`), write the event's update and commit.  An
exception anywhere leaves the stored row unchanged. -/
def hookBodyExc (db : DbAttempt) (ev : TrialEventKind) (now : Nat)
    (t : Option TrialRow) : Except String (Option TrialRow) :=
  match db with
  | .failSession => .error "database error while opening the trial session"
  | .ok => .ok (t.map (applyHookEvent ev now))
  | .failCommit => .error "database error while committing the hook update"

/-- `on_harbor_event` as the sandbox runner sees it: the whole body is
wrapped in `try ... except Exception` which logs and returns, so the
callback delivers the committed row (unchanged on error) and a
logged-error flag instead of propagating.  The `Except` layer is what the
runner would abort on. -/
def onHarborEventCallback (db : DbAttempt) (ev : TrialEventKind) (now : Nat)
    (t : Option TrialRow) : Except String (Option TrialRow × Bool) :=
  match hookBodyExc db ev now t with
  | .ok t' => .ok (t', false)
  | .error _e => .ok (t, true)

/-- One hook invocation during the sandbox run: its session fate, the
event, and the event's wall-clock tick. -/
structure HookCall where
  db : DbAttempt
  event : TrialEventKind
  now : Nat
  deriving DecidableEq, Repr

/-- Fold the lifecycle hook invocations over the trial row; each
successful invocation commits its own short session. -/
def runHookEvents (calls : List HookCall) (t : TrialRow) : TrialRow :=
  calls.foldl
    (fun acc c =>
      match onHarborEventCallback c.db c.event c.now (some acc) with
      | .ok (some t', _) => t'
      | .ok (none, _) => acc
      | .error _ => acc)
    t

/-- Everything one `run_trial_job` invocation consumes from the outside
world: clock ticks, the fresh UUID for the idempotency key, the hook
invocations harbor delivers, the runner outcome (`none` when the runner
raised or was cancelled), the captured exception text for that case, the
task location resolved by `resolve_task_directory`, and the S3 upload
result (`none` when the upload raised). -/
structure TrialJobInputs where
  nowStart : Nat
  freshIdemKey : String
  hookCalls : List HookCall
  outcome : Option RunnerOutcome
  executionError : String
  resolvedTaskS3Key : Option String
  uploadedS3Key : Option String
  nowEnd : Nat
  deriving DecidableEq, Repr

/-- Lines 405-418 of trial_handler.py, still inside the final committed
session: enqueue one analysis job when analysis is enabled and the trial
has none yet, then call `maybe_start_analysis_stage`. -/
def finishTrialCommit (w : World) (tid : String) (t : TrialRow) (now : Nat) :
    World × Option String :=
  let p1 := setTrial w tid t
  if t.status = .success ∨ t.status = .failed then
    let p2 :=
      if p1.task.runAnalysis ∧ t.analysisStatus = none then
        setTrial { p1 with analysisJobs := p1.analysisJobs + 1 } tid
          { t with analysisStatus := some .queued }
      else p1
    ((maybeStartAnalysisStage p2 tid now).1, none)
  else (p1, none)

/-- The mark-running session of `run_trial_job` (lines 97-133): status
running, `started_at`, `harbor_stage = starting`, increment attempts, set
the idempotency key if absent, and default the model for nop/oracle
agents. -/
def markRunningTrial (t : TrialRow) (nowStart : Nat) (freshKey : String) :
    TrialRow :=
  let t1 := { t with
    status := TrialStatus.running
    startedAt := some nowStart
    harborStage := some "starting"
    attempts := t.attempts + 1
    idempotencyKey :=
      some (if pyTruthyStr t.idempotencyKey then t.idempotencyKey.getD freshKey
        else freshKey) }
  if ¬ pyTruthyStr t1.model ∧ (t1.agent = "nop" ∨ t1.agent = "oracle") then
    { t1 with model := some "default" }
  else t1

/-- The mark-running session's task write: a pending task becomes
running. -/
def markRunningTask (task : TaskRow) (nowStart : Nat) : TaskRow :=
  if task.status = .pending then
    { task with status := .running, startedAt := some nowStart }
  else task

/-- The `derived_reward` computation of the final session (lines
336-348): an agent-execution timeout whose job result shows the verifier
ran counts as reward 0. -/
def derivedRewardOf (fs : String → Option JobResultData) (o : RunnerOutcome) :
    Option Int :=
  if o.reward = none ∧ isAgentTimeoutErrorMessage o.error = true ∧
      verifierRanFromJobResult fs o.jobResultPath = true then
    some (0 : Int)
  else o.reward

/-- The outcome-field writes of the final session (lines 350-370). -/
def applyOutcomeFields (fs : String → Option JobResultData) (o : RunnerOutcome)
    (trialS3Key : Option String) (t : TrialRow) : TrialRow :=
  { t with
      reward := derivedRewardOf fs o
      errorMessage :=
        if pyTruthyStr o.error then o.error
        else if (derivedRewardOf fs o).isSome then none
        else t.errorMessage
      harborResultPath := o.jobResultPath
      trialS3Key := trialS3Key
      inputTokens := o.inputTokens
      cacheTokens := o.cacheTokens
      outputTokens := o.outputTokens
      costUsd := o.costUsd
      phaseTiming := o.phaseTiming
      hasTrajectory := o.hasTrajectory }

/-- `run_trial_job` from trial_handler.py as a state transformer over the
task's database slice.  The second component is the exception the handler
raises (pgqueuer then marks the job failed and retries); committed
session state survives a raise, the final session's writes do not
(`get_session` rolls back on error).  The trial row is assumed visible
(spec P3: transactional enqueue). -/
def runTrialJob (s3Enabled : Bool) (fs : String → Option JobResultData)
    (w : World) (trialId : String) (inp : TrialJobInputs) :
    World × Option String :=
  match findTrial w trialId with
  | none => (w, some "Trial not found in database")
  | some trial0 =>
    if trial0.idempotencyKey.isSome ∧
        (trial0.status = .success ∨ trial0.status = .failed) then
      (w, none)
    else
      let trial1 := markRunningTrial trial0 inp.nowStart inp.freshIdemKey
      let w1 := setTrial { w with task := markRunningTask w.task inp.nowStart }
        trialId trial1
      let trial2 := runHookEvents inp.hookCalls trial1
      let w2 := setTrial w1 trialId trial2
      let shouldUpload := s3Enabled || inp.resolvedTaskS3Key.isSome
      let trialS3Key :=
        if shouldUpload && (match inp.outcome with
            | some o => o.jobDir.isSome
            | none => false) then
          inp.uploadedS3Key
        else none
      match inp.outcome with
      | some o =>
        let t3 := applyOutcomeFields fs o trialS3Key trial2
        if (derivedRewardOf fs o).isSome then
          finishTrialCommit w2 trialId
            { t3 with status := .success, finishedAt := some inp.nowEnd } inp.nowEnd
        else if t3.attempts < t3.maxAttempts then
          (w2, some "Trial failed, retrying")
        else
          finishTrialCommit w2 trialId
            { t3 with status := .failed, finishedAt := some inp.nowEnd } inp.nowEnd
      | none =>
        finishTrialCommit w2 trialId
          { trial2 with
              status := .failed
              finishedAt := some inp.nowEnd
              errorMessage := some (if inp.executionError = "" then
                "Trial execution failed with exception" else inp.executionError) }
          inp.nowEnd

/-- A sequence of handler invocations against the same trial (queue
redeliveries and automatic retries); each entry supplies that
invocation's external inputs. -/
def runTrialSequence (s3Enabled : Bool) (fs : String → Option JobResultData)
    (trialId : String) (inps : List TrialJobInputs) (w : World) : World :=
  inps.foldl (fun acc inp => (runTrialJob s3Enabled fs acc trialId inp).1) w

/-- The per-trial invariant maintained by every handler invocation: the
attempt count never exceeds `max_attempts`, and any trial that can still
be claimed (not idempotently terminal) has attempts strictly below the
bound. -/
def TrialAttemptsInv (t : TrialRow) : Prop :=
  t.attempts ≤ t.maxAttempts ∧
  (¬(t.idempotencyKey.isSome = true ∧ (t.status = .success ∨ t.status = .failed)) →
    t.attempts < t.maxAttempts)

/-! ### Job routers (workers/queue/queue_manager.py, backend/worker.py) -/

/-- A job payload `{job_type, trial_id | task_id, queue_key}` after JSON
decoding. -/
structure JobPayload where
  jobType : Option String
  trialId : Option String
  taskId : Option String
  deriving DecidableEq, Repr

/-- `async def run_trial_job(job: Job, provider: str)`
(trial_handler.py line 55). -/
def runTrialJobParams : List String := ["job", "provider"]

/-- `async def run_analysis_job(job: Job, queue_key: str)`
(analysis_handler.py line 19). -/
def runAnalysisJobParams : List String := ["job", "queue_key"]

/-- `async def run_verdict_job(job: Job, provider: str)`
(verdict_handler.py line 19). -/
def runVerdictJobParams : List String := ["job", "provider"]

/-- Python keyword-argument binding: a `name=value` argument binds iff
`name` is among the callee's parameters (none of the handlers take
`**kwargs`); otherwise the call raises `TypeError` before the callee
body runs. -/
def pyCallBindsKw (params : List String) (kw : String) : Bool :=
  params.contains kw

/-- `handle_provider_job` from queue_manager.py (lines 99-115): route by
`job_type`; the handler bodies beyond their own payload validation are
abstracted as proceeding normally.  An `.error` is an exception
propagating to pgqueuer (job marked failed, retried); `.ok ()` means the
job is marked success. -/
def handleProviderJob (p : JobPayload) : Except String Unit :=
  match p.jobType with
  | none => .error "KeyError: job_type"
  | some jt =>
    if jt = "trial" then
      if pyCallBindsKw runTrialJobParams "queue_key" then
        if pyTruthyStr p.trialId then .ok ()
        else .error "ValueError: Invalid trial job payload (missing trial_id)"
      else .error "TypeError: run_trial_job() got an unexpected keyword argument: queue_key"
    else if jt = "analysis" then
      if pyCallBindsKw runAnalysisJobParams "queue_key" then
        if pyTruthyStr p.trialId then .ok ()
        else .error "ValueError: Invalid analysis job payload (missing trial_id)"
      else .error "TypeError: run_analysis_job() got an unexpected keyword argument: queue_key"
    else if jt = "verdict" then
      if pyCallBindsKw runVerdictJobParams "queue_key" then
        if pyTruthyStr p.taskId then .ok ()
        else .error "ValueError: Invalid verdict job payload (missing task_id)"
      else .error "TypeError: run_verdict_job() got an unexpected keyword argument: queue_key"
    else .ok ()

/-- `handle_queue_job` from backend/worker.py (lines 275-338):
`validJson` records whether `json.loads` succeeded; a payload without
`job_type` but with a truthy `trial_id` is treated as a trial job. -/
def handleQueueJob (validJson : Bool) (p : JobPayload) : Except String Unit :=
  if ¬ validJson then .error "json decode error"
  else
    let jt := if p.jobType = none ∧ pyTruthyStr p.trialId then some "trial"
      else p.jobType
    match jt with
    | some "trial" =>
      if ¬ pyTruthyStr p.trialId then
        .error "ValueError: Trial job missing trial_id"
      else if pyCallBindsKw runTrialJobParams "queue_key" then .ok ()
      else .error "TypeError: run_trial_job() got an unexpected keyword argument: queue_key"
    | some "analysis" =>
      if ¬ pyTruthyStr p.trialId then
        .error "ValueError: Analysis job missing trial_id"
      else if pyCallBindsKw runAnalysisJobParams "queue_key" then .ok ()
      else .error "TypeError: run_analysis_job() got an unexpected keyword argument: queue_key"
    | some "verdict" =>
      if ¬ pyTruthyStr p.taskId then
        .error "ValueError: Verdict job missing task_id"
      else if pyCallBindsKw runVerdictJobParams "queue_key" then .ok ()
      else .error "TypeError: run_verdict_job() got an unexpected keyword argument: queue_key"
    | _ => .error "ValueError: Unknown job_type"

/-! ### Queue-slot lessor (src/backend/worker.py lines 152-255) -/

/-- One row of the `queue_slots` table. -/
structure SlotRow where
  queueKey : String
  slot : Nat
  lockedBy : Option String
  lockedUntil : Option Nat
  deriving DecidableEq, Repr

/-- The `queue_slots` table. -/
abbrev SlotTable := List SlotRow

/-- `_ensure_queue_slots`: insert rows `(k, 0..limit-1)` with
`ON CONFLICT DO NOTHING`.  (The `limit <= 0` early return inserts
nothing, which coincides with `List.range 0 = []`.) -/
def ensureQueueSlots (tbl : SlotTable) (k : String) (limit : Nat) : SlotTable :=
  tbl ++ ((List.range limit).filter
      (fun i => ¬ tbl.any (fun r => r.queueKey == k && r.slot == i))).map
    (fun i => { queueKey := k, slot := i, lockedBy := none, lockedUntil := none })

/-- The candidate predicate of `_acquire_queue_slot`'s SQL: same key,
slot below the limit, lease NULL or expired (`locked_until <= NOW()`). -/
def slotCandidate (k : String) (limit : Nat) (now : Nat) (r : SlotRow) : Bool :=
  r.queueKey == k && decide (r.slot < limit) &&
    (match r.lockedUntil with
     | none => true
     | some t => t ≤ now)

/-- `_acquire_queue_slot`: under `FOR UPDATE SKIP LOCKED LIMIT 1`, each
transaction leases the lowest-indexed free slot below the limit, setting
`locked_by` and `locked_until = NOW() + lease_seconds`, or returns nil. -/
def acquireQueueSlot (tbl : SlotTable) (k : String) (limit : Nat)
    (workerId : String) (leaseSeconds : Nat) (now : Nat) :
    SlotTable × Option Nat :=
  if limit = 0 then (tbl, none)
  else
    let tbl1 := ensureQueueSlots tbl k limit
    match ((tbl1.filter (slotCandidate k limit now)).map SlotRow.slot).min? with
    | none => (tbl1, none)
    | some s =>
      (tbl1.map (fun r =>
        if r.queueKey == k && r.slot == s then
          { r with lockedBy := some workerId, lockedUntil := some (now + leaseSeconds) }
        else r), some s)

/-- `_release_queue_slot`: clear the lease only when `locked_by` matches
the caller. -/
def releaseQueueSlot (tbl : SlotTable) (k : String) (s : Nat) (workerId : String) :
    SlotTable :=
  tbl.map (fun r =>
    if r.queueKey == k && r.slot == s && r.lockedBy == some workerId then
      { r with lockedBy := none, lockedUntil := none }
    else r)

/-- `_cleanup_stale_queue_slots`: clear every expired lease. -/
def sweepStaleSlots (tbl : SlotTable) (now : Nat) : SlotTable :=
  tbl.map (fun r =>
    if r.lockedBy.isSome && (match r.lockedUntil with
        | some t => t ≤ now
        | none => false) then
      { r with lockedBy := none, lockedUntil := none }
    else r)

/-- One serialized transaction against the slots table; every acquirer
for key `k` passes `limit k` (`process_single_job` computes it from
`settings.get_model_concurrency`). -/
inductive SlotStep (limit : String → Nat) : SlotTable → SlotTable → Prop where
  | ensure (tbl : SlotTable) (k : String) :
      SlotStep limit tbl (ensureQueueSlots tbl k (limit k))
  | acquire (tbl : SlotTable) (k w : String) (lease now : Nat) :
      SlotStep limit tbl (acquireQueueSlot tbl k (limit k) w lease now).1
  | release (tbl : SlotTable) (k : String) (s : Nat) (w : String) :
      SlotStep limit tbl (releaseQueueSlot tbl k s w)
  | sweep (tbl : SlotTable) (now : Nat) :
      SlotStep limit tbl (sweepStaleSlots tbl now)

/-- Slot-table states reachable from the empty table. -/
inductive SlotReachable (limit : String → Nat) : SlotTable → Prop where
  | init : SlotReachable limit []
  | step {tbl tbl' : SlotTable} : SlotReachable limit tbl →
      SlotStep limit tbl tbl' → SlotReachable limit tbl'

/-- A lease live at observation time `now`. -/
def isLiveLease (now : Nat) (r : SlotRow) : Bool :=
  match r.lockedUntil with
  | some t => now < t
  | none => false

/-- The number of live leases for key `k` at time `now`. -/
def liveLeases (tbl : SlotTable) (k : String) (now : Nat) : Nat :=
  (tbl.filter (fun r => r.queueKey == k && isLiveLease now r)).length

/-- Structural well-formedness of the slots table: `(queue_key, slot)` is
a primary key and every row's index is below its key's limit. -/
def SlotsWf (limit : String → Nat) (tbl : SlotTable) : Prop :=
  tbl.Pairwise (fun a b => ¬(a.queueKey = b.queueKey ∧ a.slot = b.slot)) ∧
  ∀ r ∈ tbl, r.slot < limit r.queueKey

/-! ### Sample rows used to instantiate the theorems -/

/-- A freshly created trial row (model defaults: `attempts = 0`,
`max_attempts = 6`, no idempotency key). -/
def sampleTrialBase : TrialRow where
  status := .queued
  attempts := 0
  maxAttempts := 6
  idempotencyKey := none
  harborStage := none
  startedAt := none
  finishedAt := none
  reward := none
  errorMessage := none
  harborResultPath := none
  trialS3Key := none
  inputTokens := none
  cacheTokens := none
  outputTokens := none
  costUsd := none
  phaseTiming := none
  hasTrajectory := none
  analysisStatus := none
  agent := "test-agent"
  model := some "anthropic/model-a"

/-- A running task with analysis enabled. -/
def sampleTaskBase : TaskRow where
  status := .running
  startedAt := some 1
  finishedAt := none
  runAnalysis := true
  taskPath := some "/tmp/oddish-tasks/task-1"
  taskS3Key := none
  verdictStatus := none

/-- A one-trial world. -/
def sampleWorld : World where
  task := sampleTaskBase
  trials := [("task-1-0", sampleTrialBase)]
  analysisJobs := 0
  verdictJobs := 0

/-- External inputs for a handler invocation whose runner raised. -/
def sampleCrashInputs : TrialJobInputs where
  nowStart := 2
  freshIdemKey := "uuid-1"
  hookCalls := []
  outcome := none
  executionError := "RuntimeError: boom"
  resolvedTaskS3Key := none
  uploadedS3Key := none
  nowEnd := 3

/-- A runner outcome reporting an agent-execution timeout with the
verifier having run (spec scenario 4). -/
def sampleTimeoutOutcome : RunnerOutcome where
  reward := none
  error := some "AgentTimeoutError: Agent execution timed out after 3600s"
  jobResultPath := some "/tmp/harbor-jobs/job-1/result.json"
  jobDir := some "/tmp/harbor-jobs/job-1"
  inputTokens := some 100
  cacheTokens := some 0
  outputTokens := some 50
  costUsd := some 1
  phaseTiming := some "timing"
  hasTrajectory := some true

/-- External inputs for the agent-timeout invocation. -/
def sampleTimeoutInputs : TrialJobInputs where
  nowStart := 2
  freshIdemKey := "uuid-2"
  hookCalls := []
  outcome := some sampleTimeoutOutcome
  executionError := ""
  resolvedTaskS3Key := none
  uploadedS3Key := some "tasks/task-1/trials/task-1-0/"
  nowEnd := 3

/-- A filesystem oracle on which the job-result file shows a verifier
result. -/
def sampleFs (p : String) : Option JobResultData :=
  if p = "/tmp/harbor-jobs/job-1/result.json" then
    some { trialResults := [{ verifierResult := some "verifier-blob" }] }
  else none

/-- A concurrency-limit assignment with two slots per queue key. -/
def sampleLimit : String → Nat := fun _ => 2

/-! ## Theorems -/

theorem findUpdList (l : List (String × TrialRow)) (tid : String) (t : TrialRow)
    (h : (l.find? (fun e => e.1 == tid)).isSome = true) :
    Option.map Prod.snd ((l.map (fun e => if e.1 == tid then (e.1, t) else e)).find?
      (fun e => e.1 == tid)) = some t := by
  induction l with
  | nil => simp at h
  | cons e es ih =>
    rw [List.map_cons]
    by_cases he : (e.1 == tid) = true
    · rw [if_pos he]
      simp only [List.find?, he]
      rfl
    · have hf : (e.1 == tid) = false := by simpa using he
      rw [if_neg he]
      simp only [List.find?, hf] at h ⊢
      exact ih h

theorem findTrial_setTrial_same (w : World) (tid : String) (t : TrialRow)
    (h : (findTrial w tid).isSome = true) :
    findTrial (setTrial w tid t) tid = some t := by
  have h' : ((w.trials).find? (fun e => e.1 == tid)).isSome = true := by
    rcases hf : (w.trials).find? (fun e => e.1 == tid) with _ | v
    · unfold findTrial at h
      rw [hf] at h
      simp at h
    · rw [hf]
      rfl
  have := findUpdList w.trials tid t h'
  unfold findTrial setTrial
  exact this

theorem findTrial_setTrial_isSome (w : World) (tid : String) (t : TrialRow)
    (h : (findTrial w tid).isSome = true) :
    (findTrial (setTrial w tid t) tid).isSome = true := by
  rw [findTrial_setTrial_same w tid t h]
  rfl

theorem findTrial_task_irrel (w : World) (task' : TaskRow) (aj vj : Nat)
    (tid : String) :
    findTrial { w with task := task', analysisJobs := aj, verdictJobs := vj } tid =
      findTrial w tid := rfl

theorem setTrial_task (w : World) (tid : String) (t : TrialRow) :
    (setTrial w tid t).task = w.task := rfl

theorem setTrial_analysisJobs (w : World) (tid : String) (t : TrialRow) :
    (setTrial w tid t).analysisJobs = w.analysisJobs := rfl

theorem maybeStartAnalysisStage_frame (w : World) (tid : String) (now : Nat) :
    (maybeStartAnalysisStage w tid now).1.trials = w.trials ∧
    (maybeStartAnalysisStage w tid now).1.analysisJobs = w.analysisJobs := by
  unfold maybeStartAnalysisStage
  cases findTrial w tid
  · exact ⟨rfl, rfl⟩
  · (repeat' split) <;> exact ⟨rfl, rfl⟩

theorem applyEndLogic_frame (res : Option HookResultData) (now : Nat) (t : TrialRow) :
    (applyEndLogic res now t).attempts = t.attempts ∧
    (applyEndLogic res now t).maxAttempts = t.maxAttempts ∧
    (applyEndLogic res now t).analysisStatus = t.analysisStatus ∧
    (applyEndLogic res now t).idempotencyKey = t.idempotencyKey := by
  rcases res with _ | r
  · exact ⟨rfl, rfl, rfl, rfl⟩
  · unfold applyEndLogic
    rcases hexc : r.exceptionInfo with _ | exc <;> simp only [hexc] <;>
      (repeat' split) <;> exact ⟨rfl, rfl, rfl, rfl⟩

theorem applyHookEvent_frame (ev : TrialEventKind) (now : Nat) (t : TrialRow) :
    (applyHookEvent ev now t).attempts = t.attempts ∧
    (applyHookEvent ev now t).maxAttempts = t.maxAttempts ∧
    (applyHookEvent ev now t).analysisStatus = t.analysisStatus ∧
    (applyHookEvent ev now t).idempotencyKey = t.idempotencyKey := by
  cases ev
  case ended res => exact applyEndLogic_frame res now t
  all_goals exact ⟨rfl, rfl, rfl, rfl⟩

theorem runHookEvents_frame (calls : List HookCall) (t : TrialRow) :
    (runHookEvents calls t).attempts = t.attempts ∧
    (runHookEvents calls t).maxAttempts = t.maxAttempts ∧
    (runHookEvents calls t).analysisStatus = t.analysisStatus ∧
    (runHookEvents calls t).idempotencyKey = t.idempotencyKey := by
  induction calls generalizing t with
  | nil => exact ⟨rfl, rfl, rfl, rfl⟩
  | cons c cs ih =>
    have hstep :
        (match onHarborEventCallback c.db c.event c.now (some t) with
          | .ok (some t', _) => t'
          | .ok (none, _) => t
          | .error _ => t) = applyHookEvent c.event c.now t ∨
        (match onHarborEventCallback c.db c.event c.now (some t) with
          | .ok (some t', _) => t'
          | .ok (none, _) => t
          | .error _ => t) = t := by
      cases c.db <;> simp [onHarborEventCallback, hookBodyExc]
    have hfold : runHookEvents (c :: cs) t =
        runHookEvents cs
          (match onHarborEventCallback c.db c.event c.now (some t) with
            | .ok (some t', _) => t'
            | .ok (none, _) => t
            | .error _ => t) := by
      simp [runHookEvents]
    rcases hstep with h | h <;> rw [hfold, h]
    · have he := applyHookEvent_frame c.event c.now t
      have hi := ih (applyHookEvent c.event c.now t)
      exact ⟨hi.1.trans he.1, hi.2.1.trans he.2.1, hi.2.2.1.trans he.2.2.1,
        hi.2.2.2.trans he.2.2.2⟩
    · exact ih t

/-- C9: the job routers do not invoke the trial and verdict handlers with
a well-formed call: both `handle_provider_job` and `handle_queue_job`
pass the keyword argument `queue_key=`, but the second parameter of
`run_trial_job` and of `run_verdict_job` is declared `provider`, so
dispatching such a job raises `TypeError` before the handler body runs.
This refutes the claim (exhibited at concrete trial and verdict jobs)
and records what the code does instead. -/
theorem trial_call_kwarg_mismatch :
    pyCallBindsKw runTrialJobParams "queue_key" = false ∧
    pyCallBindsKw runVerdictJobParams "queue_key" = false ∧
    handleProviderJob
        { jobType := some "trial", trialId := some "task-1-0", taskId := none } =
      .error "TypeError: run_trial_job() got an unexpected keyword argument: queue_key" ∧
    handleQueueJob true
        { jobType := some "verdict", trialId := none, taskId := some "task-1" } =
      .error "TypeError: run_verdict_job() got an unexpected keyword argument: queue_key" := by
  refine ⟨rfl, rfl, rfl, rfl⟩

/-- C4: an invalid-payload job is not always failed and retried: a
claimed job whose `job_type` is unknown is silently completed as success
by `handle_provider_job` (its `else` branch only logs), while the
backend router `handle_queue_job` raises for the same payload as the
spec demands. -/
theorem handle_provider_job_unknown_type_silent_success :
    handleProviderJob
        { jobType := some "cleanup", trialId := some "task-1-0", taskId := none } =
      .ok () ∧
    handleQueueJob true
        { jobType := some "cleanup", trialId := some "task-1-0", taskId := none } =
      .error "ValueError: Unknown job_type" := by
  refine ⟨rfl, rfl⟩

/-- C10: every exception raised while persisting a lifecycle-hook update
inside `on_harbor_event` is caught and logged within the callback: the
callback always returns normally to the sandbox runner, and when the
hook body raised, the stored trial row is unchanged and the error is
only logged. -/
theorem harbor_hook_swallows_errors :
    ∀ (db : DbAttempt) (ev : TrialEventKind) (now : Nat) (t : Option TrialRow),
      (onHarborEventCallback db ev now t).isOk = true ∧
      (∀ e, hookBodyExc db ev now t = .error e →
        onHarborEventCallback db ev now t = .ok (t, true)) := by
  intro db ev now t
  constructor
  · cases db <;> simp [onHarborEventCallback, hookBodyExc, Except.isOk, Except.toBool]
  · intro e he
    cases db <;> simp_all [onHarborEventCallback, hookBodyExc]

/-- Witness for C10 at a concrete failing commit. -/
theorem harbor_hook_swallows_errors_witness :
    (onHarborEventCallback .failCommit .cancel 5 none).isOk = true ∧
    onHarborEventCallback .failCommit .cancel 5 none = .ok (none, true) :=
  ⟨(harbor_hook_swallows_errors .failCommit .cancel 5 none).1,
   (harbor_hook_swallows_errors .failCommit .cancel 5 none).2
     "database error while committing the hook update" rfl⟩

theorem findTrial_congr_trials (w1 w2 : World) (tid : String)
    (h : w1.trials = w2.trials) : findTrial w1 tid = findTrial w2 tid := by
  unfold findTrial
  rw [h]

theorem finishTrialCommit_enqueues (w : World) (tid : String) (t : TrialRow)
    (now : Nat)
    (hsome : (findTrial w tid).isSome = true)
    (hterm : t.status = .success ∨ t.status = .failed)
    (hana : w.task.runAnalysis = true)
    (hnone : t.analysisStatus = none) :
    (finishTrialCommit w tid t now).2 = none ∧
    findTrial (finishTrialCommit w tid t now).1 tid =
      some { t with analysisStatus := some .queued } ∧
    (finishTrialCommit w tid t now).1.analysisJobs = w.analysisJobs + 1 := by
  unfold finishTrialCommit
  rw [if_pos hterm]
  rw [if_pos (⟨by rw [setTrial_task]; exact hana, hnone⟩ :
    (setTrial w tid t).task.runAnalysis = true ∧ t.analysisStatus = none)]
  refine ⟨rfl, ?_, ?_⟩
  · rw [findTrial_congr_trials _ _ tid (maybeStartAnalysisStage_frame _ tid now).1]
    apply findTrial_setTrial_same
    exact findTrial_setTrial_isSome _ tid t hsome
  · rw [(maybeStartAnalysisStage_frame _ tid now).2]
    rfl

theorem markRunningTrial_frame (t : TrialRow) (n : Nat) (k : String) :
    (markRunningTrial t n k).attempts = t.attempts + 1 ∧
    (markRunningTrial t n k).maxAttempts = t.maxAttempts ∧
    (markRunningTrial t n k).analysisStatus = t.analysisStatus ∧
    (markRunningTrial t n k).idempotencyKey.isSome = true := by
  unfold markRunningTrial
  dsimp only
  split <;> exact ⟨rfl, rfl, rfl, rfl⟩

theorem markRunningTask_runAnalysis (task : TaskRow) (n : Nat) :
    (markRunningTask task n).runAnalysis = task.runAnalysis := by
  unfold markRunningTask
  split <;> rfl

theorem applyOutcomeFields_frame (fs : String → Option JobResultData)
    (o : RunnerOutcome) (s3k : Option String) (t : TrialRow) :
    (applyOutcomeFields fs o s3k t).attempts = t.attempts ∧
    (applyOutcomeFields fs o s3k t).maxAttempts = t.maxAttempts ∧
    (applyOutcomeFields fs o s3k t).analysisStatus = t.analysisStatus ∧
    (applyOutcomeFields fs o s3k t).reward = derivedRewardOf fs o :=
  ⟨rfl, rfl, rfl, rfl⟩

/-- C5: invoking `run_trial_job` on a trial whose idempotency token is
set and whose status is success or failed returns immediately as a
no-op: the whole database slice (the trial, its task, and the job
queues) is unchanged and no exception is raised. -/
theorem run_trial_job_terminal_noop
    (s3Enabled : Bool) (fs : String → Option JobResultData) (w : World)
    (tid : String) (inp : TrialJobInputs) (t : TrialRow)
    (hfind : findTrial w tid = some t)
    (hkey : t.idempotencyKey.isSome = true)
    (hterm : t.status = .success ∨ t.status = .failed) :
    runTrialJob s3Enabled fs w tid inp = (w, none) := by
  unfold runTrialJob
  rw [hfind]
  simp only []
  rw [if_pos ⟨hkey, hterm⟩]

/-- Witness for C5: a successful trial with its token set is skipped. -/
theorem run_trial_job_terminal_noop_witness :
    runTrialJob false (fun _ => none)
      { task := sampleTaskBase
        trials := [("task-1-0",
          { sampleTrialBase with status := .success, idempotencyKey := some "k" })]
        analysisJobs := 0
        verdictJobs := 0 } "task-1-0" sampleCrashInputs =
      ({ task := sampleTaskBase
         trials := [("task-1-0",
           { sampleTrialBase with status := .success, idempotencyKey := some "k" })]
         analysisJobs := 0
         verdictJobs := 0 }, none) :=
  run_trial_job_terminal_noop false (fun _ => none) _ "task-1-0" sampleCrashInputs
    { sampleTrialBase with status := .success, idempotencyKey := some "k" }
    (by decide) (by decide) (Or.inl rfl)

/-- C6: when the runner returns an outcome with no reward whose error
indicates an agent-execution timeout and the recorded job result shows
the verifier ran, `run_trial_job` terminalizes the trial as success with
reward 0, raises nothing (no queue retry), and — the task having
`run_analysis` set and the trial no analysis status — enqueues exactly
one analysis job. -/
theorem agent_timeout_with_verifier_success
    (s3Enabled : Bool) (fs : String → Option JobResultData) (w : World)
    (tid : String) (inp : TrialJobInputs) (t : TrialRow) (o : RunnerOutcome)
    (hfind : findTrial w tid = some t)
    (hskip : ¬(t.idempotencyKey.isSome = true ∧
      (t.status = .success ∨ t.status = .failed)))
    (hout : inp.outcome = some o)
    (hrw : o.reward = none)
    (hto : isAgentTimeoutErrorMessage o.error = true)
    (hver : verifierRanFromJobResult fs o.jobResultPath = true)
    (hana : w.task.runAnalysis = true)
    (hnoana : t.analysisStatus = none) :
    (runTrialJob s3Enabled fs w tid inp).2 = none ∧
    ∃ t', findTrial (runTrialJob s3Enabled fs w tid inp).1 tid = some t' ∧
      t'.status = .success ∧ t'.reward = some 0 ∧
      t'.analysisStatus = some AnalysisStatus.queued ∧
      (runTrialJob s3Enabled fs w tid inp).1.analysisJobs = w.analysisJobs + 1 := by
  have hder : derivedRewardOf fs o = some 0 := by
    unfold derivedRewardOf
    rw [if_pos ⟨hrw, hto, hver⟩]
  have hkey : runTrialJob s3Enabled fs w tid inp =
      finishTrialCommit
        (setTrial (setTrial { w with task := markRunningTask w.task inp.nowStart }
            tid (markRunningTrial t inp.nowStart inp.freshIdemKey))
          tid (runHookEvents inp.hookCalls
            (markRunningTrial t inp.nowStart inp.freshIdemKey)))
        tid
        { applyOutcomeFields fs o
            (if (s3Enabled || inp.resolvedTaskS3Key.isSome) && (match inp.outcome with
                | some o => o.jobDir.isSome
                | none => false) then inp.uploadedS3Key else none)
            (runHookEvents inp.hookCalls
              (markRunningTrial t inp.nowStart inp.freshIdemKey)) with
            status := .success
            finishedAt := some inp.nowEnd }
        inp.nowEnd := by
    unfold runTrialJob
    rw [hfind]
    dsimp only
    rw [if_neg hskip]
    simp only [hout, hder, Option.isSome_some, if_true]
  have hsome2 : (findTrial
      (setTrial (setTrial { w with task := markRunningTask w.task inp.nowStart }
          tid (markRunningTrial t inp.nowStart inp.freshIdemKey))
        tid (runHookEvents inp.hookCalls
          (markRunningTrial t inp.nowStart inp.freshIdemKey))) tid).isSome = true := by
    apply findTrial_setTrial_isSome
    apply findTrial_setTrial_isSome
    show (findTrial w tid).isSome = true
    rw [hfind]
    rfl
  have hnone2 :
      (runHookEvents inp.hookCalls
        (markRunningTrial t inp.nowStart inp.freshIdemKey)).analysisStatus = none := by
    rw [(runHookEvents_frame _ _).2.2.1, (markRunningTrial_frame _ _ _).2.2.1, hnoana]
  have hfin := finishTrialCommit_enqueues
    (setTrial (setTrial { w with task := markRunningTask w.task inp.nowStart }
        tid (markRunningTrial t inp.nowStart inp.freshIdemKey))
      tid (runHookEvents inp.hookCalls
        (markRunningTrial t inp.nowStart inp.freshIdemKey)))
    tid
    { applyOutcomeFields fs o
        (if (s3Enabled || inp.resolvedTaskS3Key.isSome) && (match inp.outcome with
            | some o => o.jobDir.isSome
            | none => false) then inp.uploadedS3Key else none)
        (runHookEvents inp.hookCalls
          (markRunningTrial t inp.nowStart inp.freshIdemKey)) with
        status := .success
        finishedAt := some inp.nowEnd }
    inp.nowEnd
    hsome2 (Or.inl rfl)
    (by rw [setTrial_task, setTrial_task]
        show (markRunningTask w.task inp.nowStart).runAnalysis = true
        rw [markRunningTask_runAnalysis]
        exact hana)
    (by
      have h1 := (applyOutcomeFields_frame fs o
        (if (s3Enabled || inp.resolvedTaskS3Key.isSome) && (match inp.outcome with
            | some o => o.jobDir.isSome
            | none => false) then inp.uploadedS3Key else none)
        (runHookEvents inp.hookCalls
          (markRunningTrial t inp.nowStart inp.freshIdemKey))).2.2.1
      exact h1.trans hnone2)
  rw [hkey]
  refine ⟨hfin.1, ⟨_, hfin.2.1, rfl, ?_, rfl, ?_⟩⟩
  · have h2 := (applyOutcomeFields_frame fs o
      (if (s3Enabled || inp.resolvedTaskS3Key.isSome) && (match inp.outcome with
          | some o => o.jobDir.isSome
          | none => false) then inp.uploadedS3Key else none)
      (runHookEvents inp.hookCalls
        (markRunningTrial t inp.nowStart inp.freshIdemKey))).2.2.2
    exact h2.trans hder
  · rw [hfin.2.2]
    rfl

theorem finishTrialCommit_trial_cases (w : World) (tid : String) (t : TrialRow)
    (now : Nat) (hsome : (findTrial w tid).isSome = true) :
    findTrial (finishTrialCommit w tid t now).1 tid = some t ∨
    findTrial (finishTrialCommit w tid t now).1 tid =
      some { t with analysisStatus := some .queued } := by
  unfold finishTrialCommit
  dsimp only
  split
  · split
    · right
      rw [findTrial_congr_trials _ _ tid (maybeStartAnalysisStage_frame _ tid now).1]
      apply findTrial_setTrial_same
      exact findTrial_setTrial_isSome _ tid t hsome
    · left
      rw [findTrial_congr_trials _ _ tid (maybeStartAnalysisStage_frame _ tid now).1]
      exact findTrial_setTrial_same _ tid t hsome
  · left
    exact findTrial_setTrial_same _ tid t hsome

theorem runTrialJob_attempts_inv (s3Enabled : Bool)
    (fs : String → Option JobResultData) (w : World) (tid : String)
    (inp : TrialJobInputs)
    (hInv : ∀ t, findTrial w tid = some t → TrialAttemptsInv t) :
    ∀ t', findTrial (runTrialJob s3Enabled fs w tid inp).1 tid = some t' →
      TrialAttemptsInv t' := by
  intro t' ht'
  rcases hf : findTrial w tid with _ | t
  · unfold runTrialJob at ht'
    rw [hf] at ht'
    dsimp only at ht'
    exact hInv t' ht'
  · have hInvT := hInv t hf
    unfold runTrialJob at ht'
    rw [hf] at ht'
    dsimp only at ht'
    by_cases hsk : t.idempotencyKey.isSome = true ∧
        (t.status = .success ∨ t.status = .failed)
    · rw [if_pos hsk] at ht'
      rw [hf] at ht'
      cases Option.some.inj ht'
      exact hInvT
    · rw [if_neg hsk] at ht'
      have hlt : t.attempts < t.maxAttempts := hInvT.2 hsk
      have ha2 : (runHookEvents inp.hookCalls
          (markRunningTrial t inp.nowStart inp.freshIdemKey)).attempts =
          t.attempts + 1 :=
        (runHookEvents_frame _ _).1.trans (markRunningTrial_frame t _ _).1
      have hm2 : (runHookEvents inp.hookCalls
          (markRunningTrial t inp.nowStart inp.freshIdemKey)).maxAttempts =
          t.maxAttempts :=
        (runHookEvents_frame _ _).2.1.trans (markRunningTrial_frame t _ _).2.1
      have hk2 : (runHookEvents inp.hookCalls
          (markRunningTrial t inp.nowStart inp.freshIdemKey)).idempotencyKey.isSome
          = true := by
        rw [(runHookEvents_frame _ _).2.2.2]
        exact (markRunningTrial_frame t _ _).2.2.2
      have hw1some : (findTrial
          (setTrial { w with task := markRunningTask w.task inp.nowStart } tid
            (markRunningTrial t inp.nowStart inp.freshIdemKey)) tid).isSome = true := by
        apply findTrial_setTrial_isSome
        show (findTrial w tid).isSome = true
        rw [hf]
        rfl
      have hw2some : (findTrial
          (setTrial (setTrial { w with task := markRunningTask w.task inp.nowStart }
              tid (markRunningTrial t inp.nowStart inp.freshIdemKey)) tid
            (runHookEvents inp.hookCalls
              (markRunningTrial t inp.nowStart inp.freshIdemKey))) tid).isSome = true :=
        findTrial_setTrial_isSome _ tid _ hw1some
      rcases ho : inp.outcome with _ | o
      · rw [ho] at ht'
        dsimp only at ht'
        rcases finishTrialCommit_trial_cases _ tid _ inp.nowEnd hw2some with hc | hc <;>
          rw [hc] at ht' <;> cases Option.some.inj ht' <;>
          refine ⟨by dsimp only; omega, fun hcon => absurd ⟨?_, Or.inr rfl⟩ hcon⟩ <;>
          exact hk2
      · rw [ho] at ht'
        dsimp only at ht'
        by_cases hd : (derivedRewardOf fs o).isSome = true
        · rw [if_pos hd] at ht'
          rcases finishTrialCommit_trial_cases _ tid _ inp.nowEnd hw2some with hc | hc <;>
            rw [hc] at ht' <;> cases Option.some.inj ht' <;>
            refine ⟨?_, fun hcon => absurd ⟨?_, Or.inl rfl⟩ hcon⟩
          · dsimp only
            rw [(applyOutcomeFields_frame fs o _ _).1,
              (applyOutcomeFields_frame fs o _ _).2.1]
            omega
          · exact hk2
          · dsimp only
            rw [(applyOutcomeFields_frame fs o _ _).1,
              (applyOutcomeFields_frame fs o _ _).2.1]
            omega
          · exact hk2
        · rw [if_neg hd] at ht'
          split at ht' <;> split at ht'
          all_goals first
          | (dsimp only at ht'
             rw [findTrial_setTrial_same _ tid _ hw1some] at ht'
             cases Option.some.inj ht'
             rename_i hret
             rw [(applyOutcomeFields_frame fs o _ _).1,
               (applyOutcomeFields_frame fs o _ _).2.1] at hret
             exact ⟨Nat.le_of_lt hret, fun _ => hret⟩)
          | (rcases finishTrialCommit_trial_cases _ tid _ inp.nowEnd hw2some with hc | hc <;>
               rw [hc] at ht' <;> cases Option.some.inj ht' <;>
               refine ⟨?_, fun hcon => absurd ⟨?_, Or.inr rfl⟩ hcon⟩ <;>
               first
               | (dsimp only
                  rw [(applyOutcomeFields_frame fs o _ _).1,
                    (applyOutcomeFields_frame fs o _ _).2.1]
                  omega)
               | exact hk2)

/-- Witness for C6: spec scenario 4 on a concrete one-trial world. -/
theorem agent_timeout_with_verifier_success_witness :
    (runTrialJob true sampleFs sampleWorld "task-1-0" sampleTimeoutInputs).2 = none ∧
    ∃ t', findTrial (runTrialJob true sampleFs sampleWorld "task-1-0"
        sampleTimeoutInputs).1 "task-1-0" = some t' ∧
      t'.status = .success ∧ t'.reward = some 0 ∧
      t'.analysisStatus = some AnalysisStatus.queued ∧
      (runTrialJob true sampleFs sampleWorld "task-1-0"
        sampleTimeoutInputs).1.analysisJobs = sampleWorld.analysisJobs + 1 :=
  agent_timeout_with_verifier_success true sampleFs sampleWorld "task-1-0"
    sampleTimeoutInputs sampleTrialBase sampleTimeoutOutcome
    (by decide) (by decide) (by decide) (by decide) (by decide) (by decide)
    (by decide) (by decide)

/-- C7: across every sequence of handler invocations against a trial
(queue redeliveries and automatic retries included), the attempt count
never exceeds `max_attempts`: each claimed invocation increments attempts
once, the handler re-raises (status retrying) only while the incremented
count is still below the bound, and otherwise terminalizes the trial, so
from any state satisfying the claim invariant (in particular a fresh
trial with `attempts = 0 < max_attempts`) the bound holds forever. -/
theorem trial_attempts_bounded (s3Enabled : Bool)
    (fs : String → Option JobResultData) (tid : String)
    (inps : List TrialJobInputs) (w0 : World)
    (h0 : ∀ t, findTrial w0 tid = some t → TrialAttemptsInv t) :
    ∀ t, findTrial (runTrialSequence s3Enabled fs tid inps w0) tid = some t →
      t.attempts ≤ t.maxAttempts := by
  have H : ∀ (inps : List TrialJobInputs) (w : World),
      (∀ t, findTrial w tid = some t → TrialAttemptsInv t) →
      ∀ t, findTrial (runTrialSequence s3Enabled fs tid inps w) tid = some t →
        TrialAttemptsInv t := by
    intro inps
    induction inps with
    | nil =>
      intro w hw t ht
      exact hw t ht
    | cons i is ih =>
      intro w hw t ht
      exact ih _ (runTrialJob_attempts_inv s3Enabled fs w tid i hw) t ht
  exact fun t ht => (H inps w0 h0 t ht).1

/-- Witness for C7: two redelivered crash invocations of a fresh trial
leave its attempt count within the bound. -/
theorem trial_attempts_bounded_witness :
    ∃ t, findTrial (runTrialSequence false (fun _ => none) "task-1-0"
        [sampleCrashInputs, sampleCrashInputs] sampleWorld) "task-1-0" = some t ∧
      t.attempts ≤ t.maxAttempts := by
  have h0 : ∀ t, findTrial sampleWorld "task-1-0" = some t → TrialAttemptsInv t := by
    intro t ht
    have he : (some sampleTrialBase : Option TrialRow) = some t := by
      rw [← ht]
      rfl
    cases Option.some.inj he
    exact ⟨by decide, fun _ => by decide⟩
  have hb := trial_attempts_bounded false (fun _ => none) "task-1-0"
    [sampleCrashInputs, sampleCrashInputs] sampleWorld h0
  rcases hsome : findTrial (runTrialSequence false (fun _ => none) "task-1-0"
      [sampleCrashInputs, sampleCrashInputs] sampleWorld) "task-1-0" with _ | t
  · exact absurd hsome (by decide)
  · exact ⟨t, rfl, hb t hsome⟩

theorem onePass_conservation (target : Nat) (caps : List (String × Nat))
    (acc : List String) :
    ((onePass target caps acc).1.map Prod.snd).sum +
      (onePass target caps acc).2.length =
    (caps.map Prod.snd).sum + acc.length := by
  induction caps generalizing acc with
  | nil => simp [onePass]
  | cons e rest ih =>
    rcases e with ⟨k, c⟩
    simp only [onePass]
    by_cases hfull : target ≤ acc.length
    · rw [if_pos hfull]
    · rw [if_neg hfull]
      by_cases hc : 0 < c
      · rw [if_pos hc]
        dsimp only
        have := ih (acc ++ [k])
        simp only [List.map_cons, List.sum_cons, List.length_append,
          List.length_cons, List.length_nil] at this ⊢
        omega
      · rw [if_neg hc]
        dsimp only
        have := ih acc
        simp only [List.map_cons, List.sum_cons] at this ⊢
        omega

theorem onePass_length_le (target : Nat) (caps : List (String × Nat))
    (acc : List String) (h : acc.length ≤ target) :
    (onePass target caps acc).2.length ≤ target := by
  induction caps generalizing acc with
  | nil => simpa [onePass] using h
  | cons e rest ih =>
    rcases e with ⟨k, c⟩
    simp only [onePass]
    by_cases hfull : target ≤ acc.length
    · rw [if_pos hfull]
      exact h
    · rw [if_neg hfull]
      by_cases hc : 0 < c
      · rw [if_pos hc]
        dsimp only
        exact ih (acc ++ [k]) (by simp; omega)
      · rw [if_neg hc]
        dsimp only
        exact ih acc h

theorem onePass_length_mono (target : Nat) (caps : List (String × Nat))
    (acc : List String) :
    acc.length ≤ (onePass target caps acc).2.length := by
  induction caps generalizing acc with
  | nil => simp [onePass]
  | cons e rest ih =>
    rcases e with ⟨k, c⟩
    simp only [onePass]
    by_cases hfull : target ≤ acc.length
    · rw [if_pos hfull]
    · rw [if_neg hfull]
      by_cases hc : 0 < c
      · rw [if_pos hc]
        dsimp only
        have := ih (acc ++ [k])
        simp only [List.length_append, List.length_cons, List.length_nil] at this
        omega
      · rw [if_neg hc]
        dsimp only
        exact ih acc

theorem onePass_progress (target : Nat) (caps : List (String × Nat))
    (acc : List String) (hlt : acc.length < target)
    (hsum : 0 < (caps.map Prod.snd).sum) :
    acc.length < (onePass target caps acc).2.length := by
  induction caps generalizing acc with
  | nil => simp at hsum
  | cons e rest ih =>
    rcases e with ⟨k, c⟩
    simp only [onePass]
    rw [if_neg (by omega : ¬ target ≤ acc.length)]
    by_cases hc : 0 < c
    · rw [if_pos hc]
      dsimp only
      have := onePass_length_mono target rest (acc ++ [k])
      simp only [List.length_append, List.length_cons, List.length_nil] at this
      omega
    · rw [if_neg hc]
      dsimp only
      apply ih acc hlt
      simp only [List.map_cons, List.sum_cons] at hsum
      omega

theorem onePass_capSum (target : Nat) (caps : List (String × Nat))
    (acc : List String) (k0 : String) :
    (onePass target caps acc).2.count k0 + capSum k0 (onePass target caps acc).1 =
    acc.count k0 + capSum k0 caps := by
  induction caps generalizing acc with
  | nil => simp [onePass]
  | cons e rest ih =>
    rcases e with ⟨k, c⟩
    simp only [onePass]
    by_cases hfull : target ≤ acc.length
    · rw [if_pos hfull]
    · rw [if_neg hfull]
      by_cases hc : 0 < c
      · rw [if_pos hc]
        dsimp only
        have hrec := ih (acc ++ [k])
        by_cases hk : k = k0
        · subst hk
          simp [capSum, List.filter_cons, List.count_append] at hrec ⊢
          omega
        · have hkf : (k == k0) = false := beq_eq_false_iff_ne.mpr hk
          simp [capSum, List.filter_cons, hkf, List.count_append,
            List.count_singleton, hk] at hrec ⊢
          omega
      · rw [if_neg hc]
        dsimp only
        have hrec := ih acc
        by_cases hk : k = k0
        · subst hk
          simp [capSum, List.filter_cons] at hrec ⊢
          omega
        · have hkf : (k == k0) = false := beq_eq_false_iff_ne.mpr hk
          simp [capSum, List.filter_cons, hkf] at hrec ⊢
          omega

theorem spawnRounds_length (fuel target : Nat) (caps : List (String × Nat))
    (acc : List String)
    (h1 : acc.length ≤ target)
    (h2 : target ≤ acc.length + (caps.map Prod.snd).sum)
    (h3 : target ≤ acc.length + fuel) :
    (spawnRounds fuel target caps acc).length = target := by
  induction fuel generalizing caps acc with
  | zero =>
    simp only [spawnRounds]
    omega
  | succ fuel ih =>
    simp only [spawnRounds]
    by_cases hfull : target ≤ acc.length
    · rw [if_pos hfull]
      omega
    · rw [if_neg hfull]
      have hprog : acc.length < (onePass target caps acc).2.length := by
        apply onePass_progress target caps acc (by omega)
        omega
      rw [if_neg (by omega : ¬ (onePass target caps acc).2.length = acc.length)]
      apply ih
      · exact onePass_length_le target caps acc (by omega)
      · have := onePass_conservation target caps acc
        omega
      · omega

theorem spawnRounds_count (fuel target : Nat) (caps : List (String × Nat))
    (acc : List String) (k0 : String) :
    (spawnRounds fuel target caps acc).count k0 ≤ acc.count k0 + capSum k0 caps := by
  induction fuel generalizing caps acc with
  | zero =>
    simp only [spawnRounds]
    omega
  | succ fuel ih =>
    simp only [spawnRounds]
    by_cases hfull : target ≤ acc.length
    · rw [if_pos hfull]
      omega
    · rw [if_neg hfull]
      have hcons := onePass_capSum target caps acc k0
      by_cases hbreak : (onePass target caps acc).2.length = acc.length
      · rw [if_pos hbreak]
        omega
      · rw [if_neg hbreak]
        have := ih (onePass target caps acc).1 (onePass target caps acc).2
        omega

theorem capSum_map_not_mem (k0 : String) (keys : List String) (f : String → Nat)
    (h : k0 ∉ keys) : capSum k0 (keys.map (fun k => (k, f k))) = 0 := by
  induction keys with
  | nil => rfl
  | cons a rest ih =>
    have ha : (a == k0) = false := by
      rw [beq_eq_false_iff_ne]
      intro he
      exact h (he ▸ List.mem_cons_self a rest)
    simp only [List.map_cons, capSum, List.filter_cons, ha]
    exact ih (fun hm => h (List.mem_cons_of_mem a hm))

theorem capSum_map_le (k0 : String) (keys : List String) (f : String → Nat)
    (h : keys.Nodup) : capSum k0 (keys.map (fun k => (k, f k))) ≤ f k0 := by
  induction keys with
  | nil => exact Nat.zero_le _
  | cons a rest ih =>
    rcases List.nodup_cons.mp h with ⟨hnot, hrest⟩
    by_cases ha : a = k0
    · subst ha
      have hz : capSum a (rest.map (fun k => (k, f k))) = 0 :=
        capSum_map_not_mem a rest f hnot
      simp [capSum, List.filter_cons] at hz ⊢
      omega
    · have haf : (a == k0) = false := beq_eq_false_iff_ne.mpr ha
      have hrec := ih hrest
      simp [capSum, List.filter_cons, haf] at hrec ⊢
      omega

theorem planKeys_nodup (counts : List (String × QueueCount))
    (limits : List (String × Int)) : (planKeys counts limits).Nodup := by
  unfold planKeys
  exact (List.mergeSort_perm _ _).nodup_iff.mpr (List.nodup_dedup _)

theorem fanInInv_step (w w' : World) (hs : FanInStep w w') (h : FanInInv w) :
    FanInInv w' := by
  rcases h with ⟨hra, h1, h0, hst⟩
  cases hs with
  | analysisStage tid now =>
    unfold maybeStartAnalysisStage
    cases hft : findTrial w tid
    · exact ⟨hra, h1, h0, hst⟩
    · by_cases hnotin : ¬(w.task.status = .pending ∨ w.task.status = .running)
      · rw [if_pos hnotin]
        exact ⟨hra, h1, h0, hst⟩
      · rw [if_neg hnotin]
        have hpr := not_not.mp hnotin
        have hnv : w.task.status ≠ .verdictPending := by
          rcases hpr with hp | hp <;> rw [hp] <;> intro hcon <;> cases hcon
        have hz : w.verdictJobs = 0 := h0 hnv
        by_cases hpend : 0 < pendingTrialCount w
        · rw [if_pos hpend]
          exact ⟨hra, h1, h0, hst⟩
        · rw [if_neg hpend]
          rw [if_pos hra]
          by_cases hinc : analysisIncompleteCount w = 0
          · rw [if_pos hinc]
            exact ⟨hra, fun _ => by rw [hz], fun hne => absurd rfl hne,
              Or.inr (Or.inr (Or.inr rfl))⟩
          · rw [if_neg hinc]
            exact ⟨hra, fun he => absurd he (by intro hcon; cases hcon),
              fun _ => hz, Or.inr (Or.inr (Or.inl rfl))⟩
  | verdictStage tid =>
    unfold maybeStartVerdictStage
    cases hft : findTrial w tid
    · exact ⟨hra, h1, h0, hst⟩
    · by_cases hne : w.task.status ≠ .analyzing
      · rw [if_pos hne]
        exact ⟨hra, h1, h0, hst⟩
      · rw [if_neg hne]
        have han := not_not.mp hne
        have hnv : w.task.status ≠ .verdictPending := by
          rw [han]
          intro hcon
          cases hcon
        have hz : w.verdictJobs = 0 := h0 hnv
        by_cases hcnt : 0 < analysisRunningCount w
        · rw [if_pos hcnt]
          exact ⟨hra, h1, h0, hst⟩
        · rw [if_neg hcnt]
          exact ⟨hra, fun _ => by rw [hz], fun hne2 => absurd rfl hne2,
            Or.inr (Or.inr (Or.inr rfl))⟩
  | markTaskRunning now hp =>
    refine ⟨hra, fun he => absurd he (by intro hcon; cases hcon), fun _ => ?_,
      Or.inr (Or.inl rfl)⟩
    exact h0 (by rw [hp]; intro hcon; cases hcon)
  | trialWrites trials' aj =>
    exact ⟨hra, h1, h0, hst⟩

theorem fanInInv_reachable (init w : World) (hi : FanInInv init)
    (hr : FanInReachable init w) : FanInInv w := by
  induction hr with
  | refl => exact hi
  | step hr hs ih => exact fanInInv_step _ _ hs ih

/-- C1: for a task with `run_analysis = true`, across every interleaving
of the serialized critical sections (`maybe_start_analysis_stage`,
`maybe_start_verdict_stage`, the handlers' task and trial writes), the
verdict-enqueue point fires exactly once: the number of enqueued verdict
jobs never exceeds one, equals one exactly when the task has entered
`verdict_pending`, and from an `analyzing` state whose analyses are all
finished the next `maybe_start_verdict_stage` call does fire and brings
the count to one. -/
theorem fanin_verdict_single_fire (init w : World)
    (hra : init.task.runAnalysis = true)
    (hst : init.task.status = .pending ∨ init.task.status = .running)
    (hj : init.verdictJobs = 0)
    (hr : FanInReachable init w) :
    (w.verdictJobs ≤ 1 ∧
      (w.verdictJobs = 1 ↔ w.task.status = .verdictPending)) ∧
    (∀ tid, (findTrial w tid).isSome = true → w.task.status = .analyzing →
      analysisRunningCount w = 0 →
      (maybeStartVerdictStage w tid).2 = true ∧
      (maybeStartVerdictStage w tid).1.verdictJobs = 1) := by
  have hi : FanInInv init := by
    refine ⟨hra, fun he => ?_, fun _ => hj, ?_⟩
    · rcases hst with hp | hp <;> rw [hp] at he <;> cases he
    · rcases hst with hp | hp
      · exact Or.inl hp
      · exact Or.inr (Or.inl hp)
  have hw := fanInInv_reachable init w hi hr
  constructor
  · constructor
    · by_cases hv : w.task.status = .verdictPending
      · rw [hw.2.1 hv]
      · rw [hw.2.2.1 hv]
        exact Nat.zero_le 1
    · constructor
      · intro hj1
        by_contra hnv
        rw [hw.2.2.1 hnv] at hj1
        cases hj1
      · exact hw.2.1
  · intro tid hfts hsta hcnt
    have hz : w.verdictJobs = 0 := hw.2.2.1 (by rw [hsta]; intro hcon; cases hcon)
    unfold maybeStartVerdictStage
    rcases hft2 : findTrial w tid with _ | v
    · rw [hft2] at hfts
      cases hfts
    · rw [if_neg (not_not_intro hsta)]
      rw [if_neg (by rw [hcnt]; exact Nat.lt_irrefl 0)]
      exact ⟨rfl, by dsimp only; rw [hz]⟩

/-- Witness for C1 at the initial running world. -/
theorem fanin_verdict_single_fire_witness :
    sampleWorld.verdictJobs ≤ 1 ∧
    (sampleWorld.verdictJobs = 1 ↔ sampleWorld.task.status = .verdictPending) :=
  (fanin_verdict_single_fire sampleWorld sampleWorld (by decide) (Or.inr rfl)
    rfl .refl).1

/-- C2: `build_spawn_plan` returns a plan of length
`min(total capacity, max_workers)` when both are positive and the empty
plan otherwise, and no key appears more often than its capacity
`max(min(queued, limit - picked), 0)`. -/
theorem build_spawn_plan_spec (counts : List (String × QueueCount))
    (limits : List (String × Int)) (maxWorkers : Int) :
    (buildSpawnPlan counts limits maxWorkers).length =
      (if 0 < totalCapacity counts limits ∧ 0 < maxWorkers then
        min (totalCapacity counts limits) maxWorkers.toNat else 0) ∧
    ∀ k, (buildSpawnPlan counts limits maxWorkers).count k ≤
      capacityOf counts limits k := by
  have hsum : (((planKeys counts limits).map
      (fun k => (k, capacityOf counts limits k))).map Prod.snd).sum =
      totalCapacity counts limits := by
    unfold totalCapacity
    rw [List.map_map]
    rfl
  unfold buildSpawnPlan
  by_cases hz : totalCapacity counts limits = 0 ∨ maxWorkers ≤ 0
  · rw [if_pos (by rw [hsum]; exact hz)]
    constructor
    · rw [if_neg (by omega)]
      rfl
    · intro k
      simp [Nat.zero_le]
  · rw [if_neg (by rw [hsum]; exact hz)]
    push_neg at hz
    constructor
    · rw [if_pos (by omega)]
      dsimp only
      rw [hsum]
      apply spawnRounds_length
      · exact Nat.zero_le _
      · rw [hsum]
        simp only [List.length_nil, Nat.zero_add]
        exact Nat.min_le_left _ _
      · simp only [List.length_nil, Nat.zero_add]
        exact Nat.le_refl _
    · intro k
      dsimp only
      have hc := spawnRounds_count
        (min (((planKeys counts limits).map
          (fun k => (k, capacityOf counts limits k))).map Prod.snd).sum
          maxWorkers.toNat)
        (min (((planKeys counts limits).map
          (fun k => (k, capacityOf counts limits k))).map Prod.snd).sum
          maxWorkers.toNat)
        ((planKeys counts limits).map (fun k => (k, capacityOf counts limits k)))
        [] k
      have hle := capSum_map_le k (planKeys counts limits)
        (capacityOf counts limits) (planKeys_nodup counts limits)
      simp only [List.count_nil, Nat.zero_add] at hc
      omega

theorem slotsWf_map (limit : String → Nat) (tbl : SlotTable) (f : SlotRow → SlotRow)
    (hf : ∀ r, (f r).queueKey = r.queueKey ∧ (f r).slot = r.slot)
    (h : SlotsWf limit tbl) : SlotsWf limit (tbl.map f) := by
  constructor
  · rw [List.pairwise_map]
    apply h.1.imp
    intro a b hab hcon
    exact hab ⟨((hf a).1.symm.trans hcon.1).trans (hf b).1,
      ((hf a).2.symm.trans hcon.2).trans (hf b).2⟩
  · intro r hr
    rcases List.mem_map.mp hr with ⟨r0, hr0, hfr⟩
    rw [← hfr, (hf r0).1, (hf r0).2]
    exact h.2 r0 hr0

theorem slotsWf_ensure (limit : String → Nat) (tbl : SlotTable) (k : String)
    (h : SlotsWf limit tbl) : SlotsWf limit (ensureQueueSlots tbl k (limit k)) := by
  unfold ensureQueueSlots
  constructor
  · rw [List.pairwise_append]
    refine ⟨h.1, ?_, ?_⟩
    · rw [List.pairwise_map]
      have : ((List.range (limit k)).filter
          (fun i => ¬ tbl.any (fun r => r.queueKey == k && r.slot == i))).Nodup :=
        (List.nodup_range (limit k)).filter _
      apply this.imp
      intro a b hab hcon
      exact hab hcon.2
    · intro a ha b hb hcon
      rcases List.mem_map.mp hb with ⟨i, hi, hbi⟩
      rcases List.mem_filter.mp hi with ⟨_hir, hnot⟩
      rw [← hbi] at hcon
      dsimp only at hcon
      have : tbl.any (fun r => r.queueKey == k && r.slot == i) = true := by
        rw [List.any_eq_true]
        exact ⟨a, ha, by rw [Bool.and_eq_true, beq_iff_eq, beq_iff_eq]
                         exact ⟨hcon.1, hcon.2⟩⟩
      simp [this] at hnot
  · intro r hr
    rcases List.mem_append.mp hr with hjm | hjm
    · exact h.2 r hjm
    · rcases List.mem_map.mp hjm with ⟨i, hi, hri⟩
      rcases List.mem_filter.mp hi with ⟨hir, _⟩
      rw [← hri]
      dsimp only
      exact List.mem_range.mp hir

theorem slotsWf_step (limit : String → Nat) (tbl tbl' : SlotTable)
    (hs : SlotStep limit tbl tbl') (h : SlotsWf limit tbl) :
    SlotsWf limit tbl' := by
  cases hs with
  | ensure k => exact slotsWf_ensure limit tbl k h
  | acquire k w lease now =>
    unfold acquireQueueSlot
    by_cases hl : limit k = 0
    · rw [if_pos hl]
      exact h
    · rw [if_neg hl]
      dsimp only
      rcases hm : (((ensureQueueSlots tbl k (limit k)).filter
          (slotCandidate k (limit k) now)).map SlotRow.slot).min? with _ | s
      · dsimp only
        exact slotsWf_ensure limit tbl k h
      · dsimp only
        apply slotsWf_map
        · intro r
          refine ⟨?ubm, ?_⟩ <;> (split <;> rfl)
        · exact slotsWf_ensure limit tbl k h
  | release k s w =>
    apply slotsWf_map _ _ _ _ h
    intro r
    refine ⟨?_, ?_⟩ <;> (split <;> rfl)
  | sweep now =>
    apply slotsWf_map _ _ _ _ h
    intro r
    refine ⟨?_, ?_⟩ <;> (split <;> rfl)

theorem slotsWf_reachable (limit : String → Nat) (tbl : SlotTable)
    (h : SlotReachable limit tbl) : SlotsWf limit tbl := by
  induction h with
  | init => exact ⟨List.Pairwise.nil, by intro r hr; cases hr⟩
  | step hr hs ih => exact slotsWf_step limit _ _ hs ih

theorem nodup_bounded_length_le (l : List Nat) (h : l.Nodup) (n : Nat)
    (hx : ∀ x ∈ l, x < n) : l.length ≤ n := by
  rw [← List.toFinset_card_of_nodup h]
  have hsub : l.toFinset ⊆ Finset.range n := by
    intro x hxm
    rw [Finset.mem_range]
    exact hx x (List.mem_toFinset.mp hxm)
  simpa using Finset.card_le_card hsub

theorem liveLeases_le_of_wf (limit : String → Nat) (tbl : SlotTable)
    (h : SlotsWf limit tbl) (k : String) (now : Nat) :
    liveLeases tbl k now ≤ limit k := by
  unfold liveLeases
  have hfsub : ∀ r ∈ tbl.filter (fun r => r.queueKey == k && isLiveLease now r),
      r ∈ tbl ∧ r.queueKey = k := by
    intro r hr
    rcases List.mem_filter.mp hr with ⟨hm, hp⟩
    rw [Bool.and_eq_true, beq_iff_eq] at hp
    exact ⟨hm, hp.1⟩
  have hpw : List.Pairwise (fun a b : SlotRow => a.slot ≠ b.slot)
      (tbl.filter (fun r => r.queueKey == k && isLiveLease now r)) := by
    have hpf := h.1.filter (fun r => r.queueKey == k && isLiveLease now r)
    apply List.Pairwise.imp_of_mem _ hpf
    intro a b ha hb hab hcon
    exact hab ⟨((hfsub a ha).2).trans ((hfsub b hb).2).symm, hcon⟩
  have hnd : ((tbl.filter (fun r => r.queueKey == k && isLiveLease now r)).map
      SlotRow.slot).Nodup := List.pairwise_map.mpr hpw
  have hbound : ∀ x ∈ (tbl.filter
      (fun r => r.queueKey == k && isLiveLease now r)).map SlotRow.slot,
      x < limit k := by
    intro x hxm
    rcases List.mem_map.mp hxm with ⟨r, hr, hrx⟩
    have := h.2 r (hfsub r hr).1
    rw [(hfsub r hr).2] at this
    rw [← hrx]
    exact this
  have := nodup_bounded_length_le _ hnd (limit k) hbound
  simpa using this

/-- C8: for every queue key and every reachable state of the
`queue_slots` table, the number of live leases (`locked_until > now`) is
at most the key's limit; moreover `_acquire_queue_slot` returns nil when
the limit is zero or when no slot below the limit is free. -/
theorem queue_slot_leases_bounded (limit : String → Nat) (tbl : SlotTable)
    (hr : SlotReachable limit tbl) :
    (∀ k now, liveLeases tbl k now ≤ limit k) ∧
    (∀ k wkr lease now, limit k = 0 →
      (acquireQueueSlot tbl k (limit k) wkr lease now).2 = none) ∧
    (∀ k wkr lease now,
      (acquireQueueSlot tbl k (limit k) wkr lease now).2 = none ↔
      (limit k = 0 ∨ (ensureQueueSlots tbl k (limit k)).filter
        (slotCandidate k (limit k) now) = [])) := by
  have hwf := slotsWf_reachable limit tbl hr
  refine ⟨fun k now => liveLeases_le_of_wf limit tbl hwf k now, ?_, ?_⟩
  · intro k wkr lease now hl
    unfold acquireQueueSlot
    rw [if_pos hl]
  · intro k wkr lease now
    unfold acquireQueueSlot
    by_cases hl : limit k = 0
    · rw [if_pos hl]
      exact ⟨fun _ => Or.inl hl, fun _ => rfl⟩
    · rw [if_neg hl]
      dsimp only
      rcases hm : (((ensureQueueSlots tbl k (limit k)).filter
          (slotCandidate k (limit k) now)).map SlotRow.slot).min? with _ | s
      · dsimp only
        rw [List.min?_eq_none_iff, List.map_eq_nil_iff] at hm
        exact ⟨fun _ => Or.inr hm, fun _ => rfl⟩
      · dsimp only
        constructor
        · intro hcon
          cases hcon
        · intro hcon
          rcases hcon with hcon | hcon
          · exact absurd hcon hl
          · rw [hcon] at hm
            simp at hm

theorem charEq_of_toNat (c d : Char) (h : c.toNat = d.toNat) : c = d := by
  apply Char.ext
  apply UInt32.eq_of_toBitVec_eq
  apply BitVec.eq_of_toNat_eq
  exact h

theorem toNat_ofNat_valid (n : Nat) (h : n.isValidChar) :
    (Char.ofNat n).toNat = n := by
  unfold Char.ofNat
  rw [dif_pos h]
  rfl

theorem toLower_toNat_upper (c : Char) (h1 : 65 ≤ c.toNat) (h2 : c.toNat ≤ 90) :
    (Char.toLower c).toNat = c.toNat + 32 := by
  unfold Char.toLower
  rw [if_pos ⟨h1, h2⟩]
  exact toNat_ofNat_valid _ (Or.inl (by omega))

theorem toLower_eq_self (c : Char) (h : ¬(65 ≤ c.toNat ∧ c.toNat ≤ 90)) :
    Char.toLower c = c := by
  unfold Char.toLower
  rw [if_neg h]

theorem toLower_idem (c : Char) :
    Char.toLower (Char.toLower c) = Char.toLower c := by
  by_cases h : 65 ≤ c.toNat ∧ c.toNat ≤ 90
  · have hn := toLower_toNat_upper c h.1 h.2
    apply toLower_eq_self
    omega
  · rw [toLower_eq_self c h, toLower_eq_self c h]

theorem ws_iff_toNat (c : Char) :
    c.isWhitespace = true ↔
    (c.toNat = 32 ∨ c.toNat = 9 ∨ c.toNat = 13 ∨ c.toNat = 10) := by
  unfold Char.isWhitespace
  simp only [Bool.or_eq_true, decide_eq_true_eq]
  constructor
  · rintro (((h | h) | h) | h) <;> subst h <;> simp
  · rintro (h | h | h | h)
    · exact Or.inl (Or.inl (Or.inl (charEq_of_toNat _ _ h)))
    · exact Or.inl (Or.inl (Or.inr (charEq_of_toNat _ _ h)))
    · exact Or.inl (Or.inr (charEq_of_toNat _ _ h))
    · exact Or.inr (charEq_of_toNat _ _ h)

theorem toLower_isWhitespace (c : Char) :
    (Char.toLower c).isWhitespace = c.isWhitespace := by
  by_cases h : 65 ≤ c.toNat ∧ c.toNat ≤ 90
  · have hn := toLower_toNat_upper c h.1 h.2
    have hc : c.isWhitespace = false := by
      rw [Bool.eq_false_iff]
      intro hw
      rcases (ws_iff_toNat c).mp hw with hx | hx | hx | hx <;> omega
    have hl : (Char.toLower c).isWhitespace = false := by
      rw [Bool.eq_false_iff]
      intro hw
      rcases (ws_iff_toNat _).mp hw with hx | hx | hx | hx <;> omega
    rw [hc, hl]
  · rw [toLower_eq_self c h]

theorem eq_space_iff_toNat (c : Char) : c = ' ' ↔ c.toNat = 32 := by
  constructor
  · intro h
    subst h
    rfl
  · exact charEq_of_toNat c ' '

theorem rep_ne_space (c : Char) : spaceToUnderscore c ≠ ' ' := by
  unfold spaceToUnderscore
  split
  · intro h
    cases h
  · intro h
    rename_i hne
    exact hne h

theorem rep_eq_self (c : Char) (h : c ≠ ' ') : spaceToUnderscore c = c := by
  unfold spaceToUnderscore
  rw [if_neg h]

theorem rep_lower_fix (c : Char) (h : Char.toLower c = c) :
    Char.toLower (spaceToUnderscore c) = spaceToUnderscore c := by
  by_cases hs : c = ' '
  · subst hs
    rfl
  · rw [rep_eq_self c hs]
    exact h

theorem rep_not_ws (c : Char) (h : c.isWhitespace = false) :
    (spaceToUnderscore c).isWhitespace = false := by
  have hne : c ≠ ' ' := by
    intro he
    subst he
    cases h
  rw [rep_eq_self c hne]
  exact h

theorem dropWhile_dropWhile {α : Type} (p : α → Bool) (l : List α) :
    (l.dropWhile p).dropWhile p = l.dropWhile p := by
  induction l with
  | nil => rfl
  | cons a t ih =>
    by_cases h : p a = true
    · rw [List.dropWhile_cons, if_pos h]
      exact ih
    · rw [List.dropWhile_cons, if_neg h, List.dropWhile_cons, if_neg h]

theorem dropWhile_cons_self_iff {α : Type} (p : α → Bool) (a : α) (t : List α) :
    (a :: t).dropWhile p = a :: t ↔ p a = false := by
  constructor
  · intro h
    by_contra hb
    have hp : p a = true := by
      cases hpa : p a
      · exact absurd hpa hb
      · rfl
    rw [List.dropWhile_cons, if_pos hp] at h
    have := (List.dropWhile_suffix p (l := t)).length_le
    have h2 := congrArg List.length h
    simp at h2
    omega
  · intro h
    rw [List.dropWhile_cons, if_neg (by rw [h]; intro hc; cases hc)]

theorem dropWhile_map_comm (l : List Char) (f : Char → Char)
    (hf : ∀ c, (f c).isWhitespace = c.isWhitespace)
    (h : l.dropWhile Char.isWhitespace = l) :
    (l.map f).dropWhile Char.isWhitespace = l.map f := by
  rw [List.dropWhile_map]
  have : (Char.isWhitespace ∘ f) = Char.isWhitespace := by
    funext c
    exact hf c
  rw [this, h]

theorem dropTrailingWs_isPrefix (m : List Char) : dropTrailingWs m <+: m := by
  unfold dropTrailingWs
  have h := List.dropWhile_suffix (l := m.reverse) Char.isWhitespace
  have h2 := List.reverse_prefix.mpr h
  rwa [List.reverse_reverse] at h2

theorem strip_dropWhile_fix (l : List Char) :
    (pyStripList l).dropWhile Char.isWhitespace = pyStripList l := by
  unfold pyStripList
  rcases hcase : dropTrailingWs (dropLeadingWs l) with _ | ⟨a, t⟩
  · rfl
  · have hpre := dropTrailingWs_isPrefix (dropLeadingWs l)
    rw [hcase] at hpre
    rcases hpre with ⟨u, hu⟩
    have hfix : (dropLeadingWs l).dropWhile Char.isWhitespace = dropLeadingWs l :=
      dropWhile_dropWhile Char.isWhitespace l
    rw [← hu] at hfix
    have hws : Char.isWhitespace a = false := by
      rw [List.cons_append] at hfix
      exact (dropWhile_cons_self_iff Char.isWhitespace a (t ++ u)).mp hfix
    exact (dropWhile_cons_self_iff Char.isWhitespace a t).mpr hws

theorem strip_reverse_dropWhile_fix (l : List Char) :
    (pyStripList l).reverse.dropWhile Char.isWhitespace = (pyStripList l).reverse := by
  unfold pyStripList dropTrailingWs
  rw [List.reverse_reverse]
  exact dropWhile_dropWhile Char.isWhitespace _

theorem map_id_of_mem {α : Type} (l : List α) (f : α → α)
    (h : ∀ c ∈ l, f c = c) : l.map f = l := by
  induction l with
  | nil => rfl
  | cons a t ih =>
    rw [List.map_cons, h a (List.mem_cons_self a t),
      ih (fun c hc => h c (List.mem_cons_of_mem a hc))]

theorem map_rep_dropWhile_fix (x : List Char)
    (h : x.dropWhile Char.isWhitespace = x) :
    (x.map spaceToUnderscore).dropWhile Char.isWhitespace =
      x.map spaceToUnderscore := by
  rcases x with _ | ⟨a, t⟩
  · rfl
  · have hws := (dropWhile_cons_self_iff Char.isWhitespace a t).mp h
    rw [List.map_cons]
    exact (dropWhile_cons_self_iff Char.isWhitespace _ _).mpr (rep_not_ws a hws)

theorem normChunk_data (s : String) :
    (pyNormChunk s).data =
      ((pyStripList s.data).map Char.toLower).map spaceToUnderscore := rfl

theorem normChunk_norm (s : String) : NormChars (pyNormChunk s).data := by
  rw [normChunk_data]
  have hm : ((pyStripList s.data).map Char.toLower).dropWhile Char.isWhitespace =
      (pyStripList s.data).map Char.toLower :=
    dropWhile_map_comm _ _ toLower_isWhitespace (strip_dropWhile_fix s.data)
  refine ⟨map_rep_dropWhile_fix _ hm, ?_, ?_, ?_⟩
  · have h1 : ((pyStripList s.data).reverse.map Char.toLower).dropWhile
        Char.isWhitespace = (pyStripList s.data).reverse.map Char.toLower :=
      dropWhile_map_comm _ _ toLower_isWhitespace (strip_reverse_dropWhile_fix s.data)
    have h2 := map_rep_dropWhile_fix _ h1
    have he : (((pyStripList s.data).map Char.toLower).map spaceToUnderscore).reverse
        = ((pyStripList s.data).reverse.map Char.toLower).map spaceToUnderscore := by
      rw [List.map_reverse, List.map_reverse]
    rw [he]
    exact h2
  · intro c hc
    rcases List.mem_map.mp hc with ⟨c1, hc1, hcc⟩
    rcases List.mem_map.mp hc1 with ⟨c0, _, hcc0⟩
    rw [← hcc, ← hcc0]
    exact rep_lower_fix _ (toLower_idem c0)
  · intro c hc
    rcases List.mem_map.mp hc with ⟨c1, _, hcc⟩
    rw [← hcc]
    exact rep_ne_space c1

theorem data_eq_nil_iff (s : String) : s.data = [] ↔ s = "" := by
  constructor
  · intro h
    apply String.ext
    rw [h]
  · intro h
    rw [h]

theorem normChunk_fix (s : String) (h : NormChars s.data) : pyNormChunk s = s := by
  rcases h with ⟨h1, h2, h3, h4⟩
  apply String.ext
  rw [normChunk_data]
  have hstrip : pyStripList s.data = s.data := by
    unfold pyStripList dropLeadingWs dropTrailingWs
    rw [h1, h2, List.reverse_reverse]
  rw [hstrip, map_id_of_mem _ _ h3]
  exact map_id_of_mem _ _ (fun c hc => rep_eq_self c (h4 c hc))

theorem concat_data (a b : String) :
    (a ++ "/" ++ b).data = a.data ++ '/' :: b.data := by
  rw [String.data_append, String.data_append]
  rw [show "/".data = ['/'] from rfl, List.append_assoc]
  rfl

theorem normChars_concat (a b : String) (ha : NormChars a.data)
    (hb : NormChars b.data) (hna : a ≠ "") (hnb : b ≠ "") :
    NormChars (a ++ "/" ++ b).data := by
  rw [concat_data]
  have hane : a.data ≠ [] := fun hc => hna ((data_eq_nil_iff a).mp hc)
  have hbne : b.data ≠ [] := fun hc => hnb ((data_eq_nil_iff b).mp hc)
  refine ⟨?_, ?_, ?_, ?_⟩
  · rcases hd : a.data with _ | ⟨c, t⟩
    · exact absurd hd hane
    · have hws : Char.isWhitespace c = false := by
        have := ha.1
        rw [hd] at this
        exact (dropWhile_cons_self_iff Char.isWhitespace c t).mp this
      rw [List.cons_append]
      exact (dropWhile_cons_self_iff Char.isWhitespace c _).mpr hws
  · rw [List.reverse_append, List.reverse_cons]
    rcases hd : b.data.reverse with _ | ⟨c, t⟩
    · exact absurd (by simpa using congrArg List.reverse hd) hbne
    · have hws : Char.isWhitespace c = false := by
        have := hb.2.1
        rw [hd] at this
        exact (dropWhile_cons_self_iff Char.isWhitespace c t).mp this
      rw [List.cons_append, List.cons_append]
      exact (dropWhile_cons_self_iff Char.isWhitespace c _).mpr hws
  · intro c hc
    rcases List.mem_append.mp hc with hm | hm
    · exact ha.2.2.1 c hm
    · rcases List.mem_cons.mp hm with hm2 | hm2
      · rw [hm2]
        decide
      · exact hb.2.2.1 c hm2
  · intro c hc
    rcases List.mem_append.mp hc with hm | hm
    · exact ha.2.2.2 c hm
    · rcases List.mem_cons.mp hm with hm2 | hm2
      · rw [hm2]
        decide
      · exact hb.2.2.2 c hm2

theorem takeWhile_append_stop {p : Char → Bool} (l1 l2 : List Char) (x : Char)
    (h1 : ∀ c ∈ l1, p c = true) (hx : p x = false) :
    (l1 ++ x :: l2).takeWhile p = l1 ∧ (l1 ++ x :: l2).dropWhile p = x :: l2 := by
  induction l1 with
  | nil =>
    constructor
    · simp [List.takeWhile_cons, hx]
    · simp [List.dropWhile_cons, hx]
  | cons a t ih =>
    have hpa : p a = true := h1 a (List.mem_cons_self a t)
    have hrest := ih (fun c hc => h1 c (List.mem_cons_of_mem a hc))
    constructor
    · rw [List.cons_append, List.takeWhile_cons, hpa]
      simp only [if_true]
      rw [hrest.1]
    · rw [List.cons_append, List.dropWhile_cons, hpa]
      simp only [if_true]
      exact hrest.2

theorem pySplitFirst_concat (p n : String) (hp : '/' ∉ p.data) :
    pySplitFirst (p ++ "/" ++ n) '/' = (p, n) := by
  unfold pySplitFirst
  rw [concat_data]
  have h1 : ∀ c ∈ p.data, (decide (c ≠ '/')) = true := by
    intro c hc
    rw [decide_eq_true_eq]
    intro he
    exact hp (he ▸ hc)
  have hx : (decide (('/' : Char) ≠ '/')) = false := by decide
  have hsplit := takeWhile_append_stop p.data n.data '/' h1 hx
  rw [Prod.mk.injEq]
  constructor
  · apply String.ext
    exact hsplit.1
  · apply String.ext
    rw [hsplit.2]
    rfl

theorem cleanup_token_props (p q : String) (h : cleanupProviderToken p = some q)
    (hsp : ' ' ∉ q.data) : NormChars q.data ∧ q ≠ "" := by
  unfold cleanupProviderToken at h
  by_cases he : pyLower (pyTrim p) = ""
  · rw [if_pos he] at h
    cases h
  · rw [if_neg he] at h
    cases Option.some.inj h
    refine ⟨⟨?_, ?_, ?_, ?_⟩, he⟩
    · exact dropWhile_map_comm _ _ toLower_isWhitespace (strip_dropWhile_fix p.data)
    · show ((pyStripList p.data).map Char.toLower).reverse.dropWhile
        Char.isWhitespace = ((pyStripList p.data).map Char.toLower).reverse
      rw [← List.map_reverse]
      exact dropWhile_map_comm _ _ toLower_isWhitespace
        (strip_reverse_dropWhile_fix p.data)
    · intro c hc
      rcases List.mem_map.mp hc with ⟨c0, _, hcc⟩
      rw [← hcc]
      exact toLower_idem c0
    · intro c hc he2
      exact hsp (he2 ▸ hc)

theorem inferProvider_good (hsplit llm : String → Option String)
    (hg1 : GoodProviderOracle hsplit) (hg2 : GoodProviderOracle llm)
    (m pp : String) (h : inferProvider hsplit llm m = some pp) :
    NormChars pp.data ∧ pp ≠ "" ∧ '/' ∉ pp.data ∧ pp ≠ "n" := by
  rcases hh : hsplit m with _ | p1
  · rcases hl : llm m with _ | p2
    · have h2 : heuristicProviderFor (pyLower (pyTrim m)) = some pp := by
        unfold inferProvider at h
        rw [hh, hl] at h
        exact h
      have hmem : pp = "openai" ∨ pp = "anthropic" ∨ pp = "google" := by
        unfold heuristicProviderFor at h2
        split at h2
        · exact Or.inl (Option.some.inj h2).symm
        · split at h2
          · exact Or.inr (Or.inl (Option.some.inj h2).symm)
          · split at h2
            · exact Or.inr (Or.inr (Option.some.inj h2).symm)
            · cases h2
      rcases hmem with he | he | he <;> subst he <;>
        exact ⟨⟨rfl, rfl, by decide, by decide⟩, by decide, by decide, by decide⟩
    · have h2 : cleanupProviderToken p2 = some pp := by
        unfold inferProvider at h
        rw [hh, hl] at h
        exact h
      have hgood := hg2 m p2 pp hl h2
      have := cleanup_token_props p2 pp h2 hgood.1
      exact ⟨this.1, this.2, hgood.2.1, hgood.2.2⟩
  · have h2 : cleanupProviderToken p1 = some pp := by
      unfold inferProvider at h
      rw [hh] at h
      exact h
    have hgood := hg1 m p1 pp hh h2
    have := cleanup_token_props p1 pp h2 hgood.1
    exact ⟨this.1, this.2, hgood.2.1, hgood.2.2⟩

/-- Witness for C8: a reachable table after creating the slots of one key
and acquiring one lease stays within the bound. -/
theorem queue_slot_leases_bounded_witness :
    liveLeases (acquireQueueSlot
      (ensureQueueSlots [] "default" (sampleLimit "default")) "default"
      (sampleLimit "default") "worker-1" 100 0).1 "default" 5 ≤
      sampleLimit "default" :=
  (queue_slot_leases_bounded sampleLimit _
    (SlotReachable.step
      (SlotReachable.step SlotReachable.init (SlotStep.ensure [] "default"))
      (SlotStep.acquire (ensureQueueSlots [] "default" (sampleLimit "default"))
        "default" "worker-1" 100 0))).1 "default" 5

theorem nqk_default_of_alias (hsplit llm : String → Option String) (s : String)
    (h : pyNormChunk s = "" ∨ modelAbsentAliases.contains (pyNormChunk s) = true ∨
      providerOnlyQueueAliases.contains (pyNormChunk s) = true) :
    normalizeQueueKey hsplit llm s = "default" := by
  unfold normalizeQueueKey
  dsimp only
  by_cases h1 : pyNormChunk s = ""
  · rw [if_pos h1]
  · rw [if_neg h1]
    by_cases h2 : modelAbsentAliases.contains (pyNormChunk s) = true
    · rw [if_pos h2]
    · rw [if_neg h2]
      have h3 : providerOnlyQueueAliases.contains (pyNormChunk s) = true := by
        rcases h with hc | hc | hc
        · exact absurd hc h1
        · exact absurd hc h2
        · exact hc
      rw [if_pos h3]

theorem nqk_slash_default (hsplit llm : String → Option String) (s : String)
    (h1 : ¬ pyNormChunk s = "")
    (h2 : ¬ modelAbsentAliases.contains (pyNormChunk s) = true)
    (h3 : ¬ providerOnlyQueueAliases.contains (pyNormChunk s) = true)
    (h4 : pyContainsChar (pyNormChunk s) '/' = true)
    (h5 : (providerOnlyQueueAliases.contains (pySplitFirst (pyNormChunk s) '/').1 &&
      providerOnlyQueueAliases.contains (pySplitFirst (pyNormChunk s) '/').2) = true) :
    normalizeQueueKey hsplit llm s = "default" := by
  unfold normalizeQueueKey
  dsimp only
  rw [if_neg h1, if_neg h2, if_neg h3, if_pos h4, if_pos h5]

theorem nqk_slash_eq (hsplit llm : String → Option String) (s : String)
    (h1 : ¬ pyNormChunk s = "")
    (h2 : ¬ modelAbsentAliases.contains (pyNormChunk s) = true)
    (h3 : ¬ providerOnlyQueueAliases.contains (pyNormChunk s) = true)
    (h4 : pyContainsChar (pyNormChunk s) '/' = true)
    (h5 : ¬ (providerOnlyQueueAliases.contains (pySplitFirst (pyNormChunk s) '/').1 &&
      providerOnlyQueueAliases.contains (pySplitFirst (pyNormChunk s) '/').2) = true) :
    normalizeQueueKey hsplit llm s = pyNormChunk s := by
  unfold normalizeQueueKey
  dsimp only
  rw [if_neg h1, if_neg h2, if_neg h3, if_pos h4, if_neg h5]

theorem nqk_bare_none (hsplit llm : String → Option String) (s : String)
    (h1 : ¬ pyNormChunk s = "")
    (h2 : ¬ modelAbsentAliases.contains (pyNormChunk s) = true)
    (h3 : ¬ providerOnlyQueueAliases.contains (pyNormChunk s) = true)
    (h4 : pyContainsChar (pyNormChunk s) '/' = false)
    (hinf : inferProvider hsplit llm (pyNormChunk s) = none) :
    normalizeQueueKey hsplit llm s = pyNormChunk s := by
  unfold normalizeQueueKey
  dsimp only
  rw [if_neg h1, if_neg h2, if_neg h3,
    if_neg (fun hc => Bool.false_ne_true (h4 ▸ hc)), hinf]

theorem nqk_bare_some (hsplit llm : String → Option String) (s pp : String)
    (h1 : ¬ pyNormChunk s = "")
    (h2 : ¬ modelAbsentAliases.contains (pyNormChunk s) = true)
    (h3 : ¬ providerOnlyQueueAliases.contains (pyNormChunk s) = true)
    (h4 : pyContainsChar (pyNormChunk s) '/' = false)
    (hinf : inferProvider hsplit llm (pyNormChunk s) = some pp) :
    normalizeQueueKey hsplit llm s = pp ++ "/" ++ pyNormChunk s := by
  unfold normalizeQueueKey
  dsimp only
  rw [if_neg h1, if_neg h2, if_neg h3,
    if_neg (fun hc => Bool.false_ne_true (h4 ▸ hc)), hinf]

/-- C3: `Settings.normalize_queue_key` is idempotent for any pair of
well-behaved provider oracles: applying it twice to any string gives the
same result as applying it once; every provider-only alias (openai,
anthropic, claude, google, gemini, default) maps to the literal
"default"; and a bare model name whose provider is inferable maps to
"provider/model", which then maps to itself. -/
theorem normalize_queue_key_idempotent (hsplit llm : String → Option String)
    (hg1 : GoodProviderOracle hsplit) (hg2 : GoodProviderOracle llm) :
    (∀ s, normalizeQueueKey hsplit llm (normalizeQueueKey hsplit llm s) =
      normalizeQueueKey hsplit llm s) ∧
    (∀ a ∈ providerOnlyQueueAliases, normalizeQueueKey hsplit llm a = "default") ∧
    (∀ s pp, pyContainsChar (pyNormChunk s) '/' = false →
      pyNormChunk s ≠ "" →
      modelAbsentAliases.contains (pyNormChunk s) = false →
      providerOnlyQueueAliases.contains (pyNormChunk s) = false →
      inferProvider hsplit llm (pyNormChunk s) = some pp →
      normalizeQueueKey hsplit llm s = pp ++ "/" ++ pyNormChunk s ∧
      normalizeQueueKey hsplit llm (pp ++ "/" ++ pyNormChunk s) =
        pp ++ "/" ++ pyNormChunk s) := by
  have hdef : normalizeQueueKey hsplit llm "default" = "default" :=
    nqk_default_of_alias hsplit llm "default" (Or.inr (Or.inl (by decide)))
  have hidem : ∀ s, normalizeQueueKey hsplit llm (normalizeQueueKey hsplit llm s) =
      normalizeQueueKey hsplit llm s := by
    intro s
    have hnorm : NormChars (pyNormChunk s).data := normChunk_norm s
    have hfix : pyNormChunk (pyNormChunk s) = pyNormChunk s :=
      normChunk_fix (pyNormChunk s) hnorm
    by_cases h1 : pyNormChunk s = ""
    · rw [nqk_default_of_alias hsplit llm s (Or.inl h1)]
      exact hdef
    by_cases h2 : modelAbsentAliases.contains (pyNormChunk s) = true
    · rw [nqk_default_of_alias hsplit llm s (Or.inr (Or.inl h2))]
      exact hdef
    by_cases h3 : providerOnlyQueueAliases.contains (pyNormChunk s) = true
    · rw [nqk_default_of_alias hsplit llm s (Or.inr (Or.inr h3))]
      exact hdef
    have h1f : ¬ pyNormChunk (pyNormChunk s) = "" := by
      rw [hfix]
      exact h1
    have h2f : ¬ modelAbsentAliases.contains (pyNormChunk (pyNormChunk s)) = true := by
      rw [hfix]
      exact h2
    have h3f : ¬ providerOnlyQueueAliases.contains (pyNormChunk (pyNormChunk s)) = true := by
      rw [hfix]
      exact h3
    by_cases h4 : pyContainsChar (pyNormChunk s) '/' = true
    · by_cases h5 : (providerOnlyQueueAliases.contains
          (pySplitFirst (pyNormChunk s) '/').1 &&
          providerOnlyQueueAliases.contains (pySplitFirst (pyNormChunk s) '/').2) = true
      · rw [nqk_slash_default hsplit llm s h1 h2 h3 h4 h5]
        exact hdef
      · rw [nqk_slash_eq hsplit llm s h1 h2 h3 h4 h5]
        have h4f : pyContainsChar (pyNormChunk (pyNormChunk s)) '/' = true := by
          rw [hfix]
          exact h4
        have h5f : ¬ (providerOnlyQueueAliases.contains
            (pySplitFirst (pyNormChunk (pyNormChunk s)) '/').1 &&
            providerOnlyQueueAliases.contains
            (pySplitFirst (pyNormChunk (pyNormChunk s)) '/').2) = true := by
          rw [hfix]
          exact h5
        exact (nqk_slash_eq hsplit llm (pyNormChunk s) h1f h2f h3f h4f h5f).trans hfix
    · have h4b : pyContainsChar (pyNormChunk s) '/' = false := by
        simpa using h4
      have h4bf : pyContainsChar (pyNormChunk (pyNormChunk s)) '/' = false := by
        rw [hfix]
        exact h4b
      rcases hinf : inferProvider hsplit llm (pyNormChunk s) with _ | pp
      · rw [nqk_bare_none hsplit llm s h1 h2 h3 h4b hinf]
        have hinff : inferProvider hsplit llm (pyNormChunk (pyNormChunk s)) = none := by
          rw [hfix]
          exact hinf
        exact (nqk_bare_none hsplit llm (pyNormChunk s) h1f h2f h3f h4bf hinff).trans hfix
      · rw [nqk_bare_some hsplit llm s pp h1 h2 h3 h4b hinf]
        have hpp := inferProvider_good hsplit llm hg1 hg2 (pyNormChunk s) pp hinf
        have hno : NormChars (pp ++ "/" ++ pyNormChunk s).data :=
          normChars_concat pp (pyNormChunk s) hpp.1 hnorm hpp.2.1 h1
        have hfixo : pyNormChunk (pp ++ "/" ++ pyNormChunk s) =
            pp ++ "/" ++ pyNormChunk s := normChunk_fix _ hno
        have hsplito : pySplitFirst (pp ++ "/" ++ pyNormChunk s) '/' =
            (pp, pyNormChunk s) := pySplitFirst_concat pp (pyNormChunk s) hpp.2.2.1
        have hdata : (pp ++ "/" ++ pyNormChunk s).data =
            pp.data ++ '/' :: (pyNormChunk s).data := concat_data pp (pyNormChunk s)
        have hslashmem : '/' ∈ (pp ++ "/" ++ pyNormChunk s).data := by
          rw [hdata]
          exact List.mem_append.mpr (Or.inr (List.mem_cons_self _ _))
        have hone : ¬ pyNormChunk (pp ++ "/" ++ pyNormChunk s) = "" := by
          rw [hfixo]
          intro he
          have hd2 := congrArg String.data he
          rw [hdata] at hd2
          simp at hd2
        have habso : ¬ modelAbsentAliases.contains
            (pyNormChunk (pp ++ "/" ++ pyNormChunk s)) = true := by
          rw [hfixo]
          intro hc
          have hmem := List.mem_of_elem_eq_true hc
          simp only [modelAbsentAliases, List.mem_cons, List.not_mem_nil,
            or_false] at hmem
          rcases hmem with he | he | he | he | he | he | he | he
          all_goals first
            | (rw [he] at hslashmem
               revert hslashmem
               decide)
            | (rw [he] at hsplito
               have heval : pySplitFirst "n/a" '/' = ("n", "a") := by decide
               have hpn : "n" = pp := congrArg Prod.fst (heval.symm.trans hsplito)
               exact hpp.2.2.2 hpn.symm)
        have hprovok : ¬ providerOnlyQueueAliases.contains
            (pyNormChunk (pp ++ "/" ++ pyNormChunk s)) = true := by
          rw [hfixo]
          intro hc
          have hmem := List.mem_of_elem_eq_true hc
          simp only [providerOnlyQueueAliases, List.mem_cons, List.not_mem_nil,
            or_false] at hmem
          rcases hmem with he | he | he | he | he | he
          all_goals rw [he] at hslashmem
          all_goals revert hslashmem
          all_goals decide
        have hconto : pyContainsChar (pyNormChunk (pp ++ "/" ++ pyNormChunk s))
            '/' = true := by
          rw [hfixo]
          unfold pyContainsChar
          exact List.elem_eq_true_of_mem hslashmem
        have hpieceso : ¬ (providerOnlyQueueAliases.contains
            (pySplitFirst (pyNormChunk (pp ++ "/" ++ pyNormChunk s)) '/').1 &&
            providerOnlyQueueAliases.contains
            (pySplitFirst (pyNormChunk (pp ++ "/" ++ pyNormChunk s)) '/').2) = true := by
          rw [hfixo, hsplito]
          intro hc
          exact h3 ((Bool.and_eq_true _ _).mp hc).2
        exact (nqk_slash_eq hsplit llm (pp ++ "/" ++ pyNormChunk s)
          hone habso hprovok hconto hpieceso).trans hfixo
  refine ⟨hidem, ?_, ?_⟩
  · intro a ha
    apply nqk_default_of_alias
    refine Or.inr (Or.inr ?_)
    simp only [providerOnlyQueueAliases, List.mem_cons, List.not_mem_nil,
      or_false] at ha
    rcases ha with rfl | rfl | rfl | rfl | rfl | rfl
    all_goals decide
  · intro s pp hb hne habs hprov hinf
    have h1 : ¬ pyNormChunk s = "" := hne
    have h2 : ¬ modelAbsentAliases.contains (pyNormChunk s) = true := by
      rw [habs]
      exact Bool.false_ne_true
    have h3 : ¬ providerOnlyQueueAliases.contains (pyNormChunk s) = true := by
      rw [hprov]
      exact Bool.false_ne_true
    have h0 := nqk_bare_some hsplit llm s pp h1 h2 h3 hb hinf
    refine ⟨h0, ?_⟩
    rw [← h0]
    exact hidem s

/-- Witness for C3: with trivially well-behaved oracles, a second
application of the canonicalizer to the key produced for a raw model
string changes nothing. -/
theorem normalize_queue_key_idempotent_witness :
    normalizeQueueKey (fun _ => none) (fun _ => none)
      (normalizeQueueKey (fun _ => none) (fun _ => none) "  My Model/V2  ") =
      normalizeQueueKey (fun _ => none) (fun _ => none) "  My Model/V2  " :=
  (normalize_queue_key_idempotent (fun _ => none) (fun _ => none)
    (fun _ _ _ h _ => nomatch h) (fun _ _ _ h _ => nomatch h)).1 "  My Model/V2  "

end Oddish
